import Mathlib

/-!
Verification of the RTHK news scraper's core logic.

We give a shallow embedding, in Lean, of the repository's pure logic:

* `utils/database_utils.py`: `index_articles`, `merge_articles`,
  `load_database`, `save_database`, `clear_database`;
* `utils/scraper_utils.py`: `article_id` (SHA-256 based identifier),
  `parse_list`, `dedupe_by_url`, `parse_detail`, `build_payload`.

Python records are dynamic dictionaries; each relevant field is modelled
as an `Option` value where `none` stands for "key absent or `None`" (the
code only ever reads these fields through `dict.get`, which does not
distinguish the two). Python truthiness on such a field — `None` and `""`
are falsy, any other string truthy — is the `truthy` predicate below.

The Python dictionary `indexed` used by `merge_articles` preserves
insertion order and overwrites in place; it is modelled by an association
list with the matching `insertA` operation.  The `created` list in the
Python code holds *references* to the very dictionaries stored in
`indexed`, so in-place backfills performed later in the same batch are
visible through `created`; the model therefore records the created keys
and reads the final values back from the association list at the end.
-/

namespace RTHK

/-- Model of one article dictionary.  Every field that merge or scraping
logic reads is present; `none` models "key absent or value `None`". -/
structure Rec where
  id : Option String := none
  title : Option String := none
  body : Option String := none
  url : Option String := none
  time_text : Option String := none
  scraped_at : Option String := none
  scraped_by : Option String := none
  emailed : Option Bool := none
deriving Repr, DecidableEq

/-- Python truthiness of a `dict.get` result on a string field:
`None` and `""` are falsy, any other string is truthy. -/
def truthy : Option String → Bool
  | none => false
  | some s => decide (s ≠ "")

/-- Python `x or ""` applied to a `dict.get` string result. -/
def orEmpty : Option String → String
  | none => ""
  | some s => s

/-- The truthy id of a record, as tested by `if item_id:` in the source:
`some i` exactly when the `id` key is present with a non-empty string. -/
def idOf (r : Rec) : Option String :=
  match r.id with
  | none => none
  | some i => if i = "" then none else some i

/-- An insertion-ordered dictionary from ids to records, as a list of
key/value pairs. -/
abbrev Assoc := List (String × Rec)

/-- Lookup in the ordered dictionary (first, hence unique, match). -/
def lookupA : Assoc → String → Option Rec
  | [], _ => none
  | (k', v) :: t, k => if k' = k then some v else lookupA t k

/-- `d[k] = v` on a Python dict: overwrite in place if the key exists
(keeping its position), otherwise append at the end. -/
def insertA : Assoc → String → Rec → Assoc
  | [], k, v => [(k, v)]
  | (k', v') :: t, k, v =>
    if k' = k then (k, v) :: t else (k', v') :: insertA t k v

/-- The loop body of `index_articles`, folding records into the dict. -/
def indexFold (acc : Assoc) : List Rec → Assoc
  | [] => acc
  | item :: t =>
    match idOf item with
    | some i => indexFold (insertA acc i item) t
    | none => indexFold acc t

/-- `index_articles`: build an id-keyed dict from the stored collection,
skipping records without a truthy id (later duplicates overwrite). -/
def index_articles (articles : List Rec) : Assoc :=
  indexFold [] articles

/-- The three backfill statements of `merge_articles`: fill `title`,
`body`, `time_text` on the stored record only where the stored value is
falsy and the candidate's is truthy. -/
def backfill (stored item : Rec) : Rec :=
  let s1 := if !truthy stored.title && truthy item.title then
    { stored with title := item.title } else stored
  let s2 := if !truthy s1.body && truthy item.body then
    { s1 with body := item.body } else s1
  if !truthy s2.time_text && truthy item.time_text then
    { s2 with time_text := item.time_text } else s2

/-- The fresh record built by `merge_articles` for an unseen id. -/
def newRec (item_id : String) (item : Rec) (scraped_by now_iso : String) : Rec :=
  { id := some item_id
    title := some (orEmpty item.title)
    body := some (orEmpty item.body)
    url := some (orEmpty item.url)
    time_text := item.time_text
    scraped_at := some now_iso
    scraped_by := some scraped_by
    emailed := some false }

/-- One iteration of the `merge_articles` loop.  The state is the ordered
dict together with the list of keys of records created so far (the Python
`created` list aliases the dict entries, see the module comment). -/
def mergeStep (scraped_by now_iso : String) (st : Assoc × List String)
    (item : Rec) : Assoc × List String :=
  match idOf item with
  | none => st
  | some i =>
    match lookupA st.1 i with
    | some stored => (insertA st.1 i (backfill stored item), st.2)
    | none => (insertA st.1 i (newRec i item scraped_by now_iso), st.2 ++ [i])

/-- The `merge_articles` loop over the candidate batch. -/
def mergeFold (scraped_by now_iso : String) (st : Assoc × List String) :
    List Rec → Assoc × List String
  | [] => st
  | item :: t => mergeFold scraped_by now_iso (mergeStep scraped_by now_iso st item) t

/-- `merge_articles(existing, new_items, scraped_by)` with the impure
`_now_iso()` passed in as `now_iso`.  Returns the merged full collection
(the dict's values in insertion order) and the list of newly created
records (read back from the dict, since the Python `created` list aliases
the stored dictionaries). -/
def merge_articles (existing new_items : List Rec) (scraped_by now_iso : String) :
    List Rec × List Rec :=
  let res := mergeFold scraped_by now_iso (index_articles existing, []) new_items
  (res.1.map Prod.snd, res.2.filterMap (fun k => lookupA res.1 k))

/-! ### Persistence model (`load_database`, `save_database`, `clear_database`)

The remote object store holds at most one JSON document; we model the
stored object as `Option DBDoc` (`none` when the blob does not exist,
which is what `read_json_from_storage` reports as `None`).  A field of
the document is `none` when the key is absent; `updated_at = some none`
models the key present with JSON `null`. -/

/-- The persisted collection document `db.json`. -/
structure DBDoc where
  updated_at : Option (Option String) := none
  articles : Option (List Rec) := none
deriving Repr, DecidableEq

/-- `load_database`: an absent blob, or a document with no keys at all
(a falsy payload), yields `{"updated_at": None, "articles": []}`;
otherwise `setdefault("articles", [])` is applied. -/
def load_database (stored : Option DBDoc) : DBDoc :=
  match stored with
  | none => { updated_at := some none, articles := some [] }
  | some payload =>
    if payload.updated_at = none ∧ payload.articles = none then
      { updated_at := some none, articles := some [] }
    else
      { payload with articles := some (payload.articles.getD []) }

/-- `save_database`: stamps `payload["updated_at"] = _now_iso()` and
uploads the document (the impure `_now_iso()` is the `now_iso` input). -/
def save_database (payload : DBDoc) (now_iso : String) : Option DBDoc :=
  some { payload with updated_at := some (some now_iso) }

/-- `clear_database`: `save_database({"updated_at": None, "articles": []})`. -/
def clear_database (now_iso : String) : Option DBDoc :=
  save_database { updated_at := some none, articles := some [] } now_iso

/-! ### List-page parsing model (`parse_list`, `dedupe_by_url`)

BeautifulSoup is an external library; the model takes the outcome of the
CSS-selector queries that `parse_list` performs as structured input and
embeds the repository's own logic over them.  Every `Option String`
below is `some s` exactly when the selected element is present, with `s`
its `get_text(strip=True)` text (which may be the empty string). -/

/-- The optional `.catTopNewsContainer` block: its first `a[href]`'s
href, the `.catTopNewsTitleText a` text, and the `.catTopTime` text. -/
structure TopBlock where
  link : Option String := none
  titleTag : Option String := none
  timeTag : Option String := none
deriving Repr, DecidableEq

/-- The `.ns2-inner` ancestor of a list link, with its optional
`.ns2-created` time element. -/
structure InnerBlock where
  created : Option String := none
deriving Repr, DecidableEq

/-- One `.ns2-title a[href]` element: its href, its stripped text, and
its optional `.ns2-inner` parent. -/
structure NsEntry where
  href : String
  text : String
  inner : Option InnerBlock := none
deriving Repr, DecidableEq

/-- The selector results `parse_list` reads from the listing page. -/
structure ListSoup where
  top : Option TopBlock := none
  entries : List NsEntry := []
deriving Repr, DecidableEq

/-- The `ArticleLink` dataclass. -/
structure ArticleLink where
  title : String
  url : String
  time_text : Option String := none
deriving Repr, DecidableEq

/-- The canonical listing page URL (`LIST_URL` in the source). -/
def LIST_URL : String := "https://news.rthk.hk/rthk/ch/latest-news/world-news.htm"

/-- Split a character list at every occurrence of a separator character
(Python `str.split(sep)` for a one-character separator). -/
def splitChar (c : Char) : List Char → List (List Char)
  | [] => [[]]
  | x :: xs =>
    let r := splitChar c xs
    if x = c then [] :: r
    else (x :: r.headD []) :: r.tail

/-- Join character lists with a separator character (`sep.join`). -/
def joinChar (c : Char) : List (List Char) → List Char
  | [] => []
  | [x] => x
  | x :: xs => x ++ c :: joinChar c xs

/-- Prefix test on strings (Python `str.startswith`). -/
def startsWithL (p s : String) : Bool :=
  List.isPrefixOf p.data s.data

/-- Scheme-plus-host of an absolute URL (helper for the `urljoin`
model): the part before the third `/`. -/
def schemeHost (u : String) : String :=
  ⟨joinChar '/' ((splitChar '/' u.data).take 3)⟩

/-- Everything up to and including the last `/` (helper for `urljoin`). -/
def baseDir (u : String) : String :=
  ⟨joinChar '/' (splitChar '/' u.data).dropLast ++ ['/']⟩

/-- Model of `urllib.parse.urljoin` (a Python standard-library external)
for the href shapes the site produces: absolute URLs pass through,
scheme-relative and host-relative hrefs are resolved against the base's
scheme/host, and relative paths against the base's directory.  No claim
below depends on the details of this resolution. -/
def urljoinModel (base href : String) : String :=
  if href = "" then base
  else if startsWithL "http://" href || startsWithL "https://" href then href
  else if startsWithL "//" href then "https:" ++ href
  else if startsWithL "/" href then schemeHost base ++ href
  else baseDir base ++ href

/-- `normalize_url`: resolve an href against `LIST_URL`. -/
def normalize_url (href : String) : String :=
  urljoinModel LIST_URL href

/-- The loop of `dedupe_by_url`, carrying the `seen` set of urls. -/
def dedupeGo (seen : List String) : List ArticleLink → List ArticleLink
  | [] => []
  | item :: t =>
    if item.url ∈ seen then dedupeGo seen t
    else item :: dedupeGo (item.url :: seen) t

/-- `dedupe_by_url`: keep the first occurrence of each url. -/
def dedupe_by_url (items : List ArticleLink) : List ArticleLink :=
  dedupeGo [] items

/-- `parse_list`: the optional top-story block (skipped unless both its
link and its title element are present), then the regular entries in
document order, deduplicated by url. -/
def parse_list (soup : ListSoup) : List ArticleLink :=
  let tops : List ArticleLink :=
    match soup.top with
    | none => []
    | some tb =>
      match tb.link, tb.titleTag with
      | some href, some ttext =>
        [{ title := ttext, url := normalize_url href, time_text := tb.timeTag }]
      | _, _ => []
  let rest : List ArticleLink := soup.entries.map (fun e =>
    { title := e.text
      url := normalize_url e.href
      time_text :=
        match e.inner with
        | some inn =>
          match inn.created with
          | some s => some s
          | none => none
        | none => none })
  dedupe_by_url (tops ++ rest)

/-! ### Detail-page parsing and payload building -/

/-- The selector results `parse_detail` reads: the stripped text of
`h2.itemTitle` if present, and the raw text of `.itemFullText` (after
`<br>` elements have been replaced by newlines and `get_text("\n")`
applied) if that container is present. -/
structure DetailSoup where
  titleTag : Option String := none
  bodyRaw : Option String := none
deriving Repr, DecidableEq

/-- The dictionary returned by `parse_detail`. -/
structure DetailOut where
  title : Option String
  body : Option String
deriving Repr, DecidableEq

/-- Python whitespace for `str.strip()` (the ASCII whitespace set that
can occur in the scraped text). -/
def isSpacePy (c : Char) : Bool :=
  c = ' ' || c = '\t' || c = '\n' || c = '\r' || c = '\x0b' || c = '\x0c'

/-- Python `str.strip()` on a character list. -/
def stripL (l : List Char) : List Char :=
  ((l.dropWhile isSpacePy).reverse.dropWhile isSpacePy).reverse

/-- Body normalisation in `parse_detail`: split into lines, strip each,
drop blank lines, join with newline.  (Python `splitlines` differs from
splitting at `\n` only in trailing empty pieces, which the blank-line
filter drops either way.) -/
def normalizeBody (raw : String) : String :=
  ⟨joinChar '\n' (((splitChar '\n' raw.data).map stripL).filter
    (fun l => !l.isEmpty))⟩

/-- `parse_detail` over the selector results. -/
def parse_detail (soup : DetailSoup) : DetailOut :=
  { title := soup.titleTag
    body := soup.bodyRaw.map normalizeBody }

/-- Python `o or d` for an optional-string `o` and string default `d`. -/
def pyOr (o : Option String) (d : String) : String :=
  match o with
  | none => d
  | some s => if s = "" then d else s

/-! ### SHA-256 and `article_id`

`article_id(url)` is `hashlib.sha256(url.encode("utf-8")).hexdigest()[:16]`.
`hashlib.sha256` computes the FIPS 180-4 SHA-256 digest and `hexdigest`
renders it as 64 lowercase hex characters; both are embedded below over
`Nat`, with 32-bit words represented as naturals reduced mod `2^32`. -/

/-- Truncation to a 32-bit word. -/
def w32 (n : Nat) : Nat := n % 4294967296

/-- Right rotation of a 32-bit word. -/
def rotr32 (x n : Nat) : Nat := w32 ((x >>> n) ||| (x <<< (32 - n)))

/-- UTF-8 encoding of a single code point (`str.encode("utf-8")`). -/
def utf8Char (c : Char) : List Nat :=
  let n := c.toNat
  if n < 128 then [n]
  else if n < 2048 then [192 ||| (n >>> 6), 128 ||| (n &&& 63)]
  else if n < 65536 then
    [224 ||| (n >>> 12), 128 ||| ((n >>> 6) &&& 63), 128 ||| (n &&& 63)]
  else
    [240 ||| (n >>> 18), 128 ||| ((n >>> 12) &&& 63),
     128 ||| ((n >>> 6) &&& 63), 128 ||| (n &&& 63)]

/-- UTF-8 encoding of a string as a byte sequence. -/
def utf8Bytes (s : String) : List Nat :=
  s.data.flatMap utf8Char

/-- SHA-256 round constants (FIPS 180-4 section 4.2.2), in decimal. -/
def K256 : List Nat :=
  [1116352408, 1899447441, 3049323471, 3921009573, 961987163,
   1508970993, 2453635748, 2870763221, 3624381080, 310598401,
   607225278, 1426881987, 1925078388, 2162078206, 2614888103,
   3248222580, 3835390401, 4022224774, 264347078, 604807628,
   770255983, 1249150122, 1555081692, 1996064986, 2554220882,
   2821834349, 2952996808, 3210313671, 3336571891, 3584528711,
   113926993, 338241895, 666307205, 773529912, 1294757372,
   1396182291, 1695183700, 1986661051, 2177026350, 2456956037,
   2730485921, 2820302411, 3259730800, 3345764771, 3516065817,
   3600352804, 4094571909, 275423344, 430227734, 506948616,
   659060556, 883997877, 958139571, 1322822218, 1537002063,
   1747873779, 1955562222, 2024104815, 2227730452, 2361852424,
   2428436474, 2756734187, 3204031479, 3329325298]

/-- The eight working variables of the compression function. -/
structure Hash8 where
  a : Nat
  b : Nat
  c : Nat
  d : Nat
  e : Nat
  f : Nat
  g : Nat
  h : Nat
deriving Repr, DecidableEq

/-- SHA-256 initial hash value (FIPS 180-4 section 5.3.3), in decimal. -/
def H0 : Hash8 :=
  ⟨1779033703, 3144134277, 1013904242, 2773480762,
   1359893119, 2600822924, 528734635, 1541459225⟩

/-- Small sigma 0. -/
def ssig0 (x : Nat) : Nat := (rotr32 x 7) ^^^ (rotr32 x 18) ^^^ (x >>> 3)

/-- Small sigma 1. -/
def ssig1 (x : Nat) : Nat := (rotr32 x 17) ^^^ (rotr32 x 19) ^^^ (x >>> 10)

/-- Big sigma 0. -/
def bsig0 (x : Nat) : Nat := (rotr32 x 2) ^^^ (rotr32 x 13) ^^^ (rotr32 x 22)

/-- Big sigma 1. -/
def bsig1 (x : Nat) : Nat := (rotr32 x 6) ^^^ (rotr32 x 11) ^^^ (rotr32 x 25)

/-- Big-endian decoding of a byte sequence into 32-bit words. -/
def bytesToWords : List Nat → List Nat
  | b0 :: b1 :: b2 :: b3 :: rest =>
    (((b0 * 256 + b1) * 256 + b2) * 256 + b3) :: bytesToWords rest
  | _ => []

/-- Extend the 16-word message schedule by `n` further words. -/
def extendW : Nat → List Nat → List Nat
  | 0, ws => ws
  | n + 1, ws =>
    let len := ws.length
    let w := w32 (ws.getD (len - 16) 0 + ssig0 (ws.getD (len - 15) 0) +
      ws.getD (len - 7) 0 + ssig1 (ws.getD (len - 2) 0))
    extendW n (ws ++ [w])

/-- One compression round with a `(constant, schedule-word)` pair. -/
def round1 (st : Hash8) (kw : Nat × Nat) : Hash8 :=
  let ch := (st.e &&& st.f) ^^^ ((st.e ^^^ 4294967295) &&& st.g)
  let t1 := w32 (st.h + bsig1 st.e + ch + kw.1 + kw.2)
  let maj := (st.a &&& st.b) ^^^ (st.a &&& st.c) ^^^ (st.b &&& st.c)
  let t2 := w32 (bsig0 st.a + maj)
  ⟨w32 (t1 + t2), st.a, st.b, st.c, w32 (st.d + t1), st.e, st.f, st.g⟩

/-- Compression of one 64-byte chunk into the running hash value. -/
def compress (H : Hash8) (chunk : List Nat) : Hash8 :=
  let ws := extendW 48 (bytesToWords chunk)
  let st := (K256.zip ws).foldl round1 H
  ⟨w32 (H.a + st.a), w32 (H.b + st.b), w32 (H.c + st.c), w32 (H.d + st.d),
   w32 (H.e + st.e), w32 (H.f + st.f), w32 (H.g + st.g), w32 (H.h + st.h)⟩

/-- Big-endian 8-byte encoding of the message bit length. -/
def be64 (n : Nat) : List Nat :=
  [(n >>> 56) % 256, (n >>> 48) % 256, (n >>> 40) % 256, (n >>> 32) % 256,
   (n >>> 24) % 256, (n >>> 16) % 256, (n >>> 8) % 256, n % 256]

/-- SHA-256 padding: a `0x80` byte, zeros to 56 mod 64, then the bit
length, so the total length is a multiple of 64. -/
def padMessage (msg : List Nat) : List Nat :=
  msg ++ [128] ++ List.replicate ((119 - msg.length % 64) % 64) 0 ++
    be64 (msg.length * 8)

/-- Fuel-driven worker for `chunk64`; the fuel bounds the number of
chunks, so any fuel of at least the input length is enough. -/
def chunk64Go : Nat → List Nat → List (List Nat)
  | 0, _ => []
  | _ + 1, [] => []
  | n + 1, l => l.take 64 :: chunk64Go n (l.drop 64)

/-- Split a byte sequence into 64-byte chunks. -/
def chunk64 (l : List Nat) : List (List Nat) :=
  chunk64Go l.length l

/-- Lowercase hexadecimal digit of a value below 16. -/
def hexDigit : Nat → Char
  | 0 => '0' | 1 => '1' | 2 => '2' | 3 => '3' | 4 => '4'
  | 5 => '5' | 6 => '6' | 7 => '7' | 8 => '8' | 9 => '9'
  | 10 => 'a' | 11 => 'b' | 12 => 'c' | 13 => 'd' | 14 => 'e'
  | _ => 'f'

/-- The eight hex characters of one 32-bit word, most significant first. -/
def wordHex (w : Nat) : List Char :=
  [hexDigit ((w >>> 28) % 16), hexDigit ((w >>> 24) % 16),
   hexDigit ((w >>> 20) % 16), hexDigit ((w >>> 16) % 16),
   hexDigit ((w >>> 12) % 16), hexDigit ((w >>> 8) % 16),
   hexDigit ((w >>> 4) % 16), hexDigit (w % 16)]

/-- The 64 hex characters of a final hash value (`hexdigest`). -/
def digestChars (H : Hash8) : List Char :=
  wordHex H.a ++ wordHex H.b ++ wordHex H.c ++ wordHex H.d ++
  wordHex H.e ++ wordHex H.f ++ wordHex H.g ++ wordHex H.h

/-- The 64 hex characters of the SHA-256 digest of a byte sequence. -/
def sha256HexChars (msg : List Nat) : List Char :=
  digestChars ((chunk64 (padMessage msg)).foldl compress H0)

/-- `hashlib.sha256(s.encode("utf-8")).hexdigest()` as a string. -/
def sha256_hexdigest (s : String) : String :=
  ⟨sha256HexChars (utf8Bytes s)⟩

/-- `article_id(url)`: the first 16 characters of the hex digest
(the Python slice `[:16]`). -/
def article_id (url : String) : String :=
  ⟨(sha256HexChars (utf8Bytes url)).take 16⟩

/-- `build_payload` over a list of references.  Fetching a detail page
and parsing its HTML into selector results (`fetch_html` composed with
BeautifulSoup, both external) is the input function `fetchSoup`. -/
def build_payload (fetchSoup : String → DetailSoup) (items : List ArticleLink) :
    List Rec :=
  items.map (fun item =>
    let detail := parse_detail (fetchSoup item.url)
    { id := some (article_id item.url)
      title := some (pyOr detail.title item.title)
      body := some (pyOr detail.body "")
      url := some item.url
      time_text := item.time_text })

/-! ### Relations used by the merge-engine theorems -/

/-- How one string field of a stored record may evolve across a merge:
it is either unchanged, or was falsy and became truthy (a backfill). -/
def fieldRel (a b : Option String) : Prop :=
  b = a ∨ (truthy a = false ∧ truthy b = true)

/-- How a whole stored record may evolve across a merge: `id`, `url`,
`emailed`, `scraped_at`, `scraped_by` are untouched; `title`, `body`,
`time_text` evolve by `fieldRel`. -/
def frameRel (r r' : Rec) : Prop :=
  r'.id = r.id ∧ r'.url = r.url ∧ r'.emailed = r.emailed ∧
  r'.scraped_at = r.scraped_at ∧ r'.scraped_by = r.scraped_by ∧
  fieldRel r.title r'.title ∧ fieldRel r.body r'.body ∧
  fieldRel r.time_text r'.time_text

/-- `Frames init cur`: `init` is, pointwise up to `frameRel` on values
and with identical keys, a prefix of `cur`. -/
def Frames : Assoc → Assoc → Prop
  | [], _ => True
  | _ :: _, [] => False
  | (k, v) :: t, (k', v') :: t' => k' = k ∧ frameRel v v' ∧ Frames t t'

/-- A stored record is saturated for a candidate when every candidate
field that is truthy is already truthy on the record; backfilling such a
record with that candidate is a no-op. -/
def Saturated (r item : Rec) : Prop :=
  (truthy item.title = true → truthy r.title = true) ∧
  (truthy item.body = true → truthy r.body = true) ∧
  (truthy item.time_text = true → truthy r.time_text = true)

/-- Shape of a record created by the merge (possibly later backfilled):
all schema fields are present, `title`, `body`, `url` are strings, and
provenance and notification state are as set at creation. -/
def NewShape (scraped_by now_iso i : String) (r : Rec) : Prop :=
  r.id = some i ∧ (∃ s, r.title = some s) ∧ (∃ s, r.body = some s) ∧
  (∃ s, r.url = some s) ∧ r.scraped_at = some now_iso ∧
  r.scraped_by = some scraped_by ∧ r.emailed = some false

/-- The invariant maintained by the merge loop over the state
`(dict, created keys)`, relative to the initial dict `init`. -/
structure Inv (scraped_by now_iso : String) (init : Assoc)
    (st : Assoc × List String) : Prop where
  nodup : (st.1.map Prod.fst).Nodup
  ids : ∀ p ∈ st.1, idOf p.2 = some p.1
  frames : Frames init st.1
  ckeys : st.2 = (st.1.drop init.length).map Prod.fst
  cnew : ∀ i ∈ st.2, ∃ r, lookupA st.1 i = some r ∧ NewShape scraped_by now_iso i r
  cfresh : ∀ i ∈ st.2, lookupA init i = none

/-! ## Lemmas about the ordered dictionary -/

theorem lookupA_insertA_self (l : Assoc) (k : String) (v : Rec) :
    lookupA (insertA l k v) k = some v := by
  induction l with
  | nil => simp [insertA, lookupA]
  | cons p t ih =>
    obtain ⟨k', v'⟩ := p
    by_cases h : k' = k
    · subst h
      simp [insertA, lookupA]
    · simp [insertA, lookupA, h, ih]

theorem lookupA_insertA_ne (l : Assoc) {k k' : String} (v : Rec) (h : k' ≠ k) :
    lookupA (insertA l k v) k' = lookupA l k' := by
  have hkk : ¬ k = k' := fun hh => h hh.symm
  induction l with
  | nil => simp [insertA, lookupA, hkk]
  | cons p t ih =>
    obtain ⟨k0, v0⟩ := p
    by_cases h0 : k0 = k
    · subst h0
      simp [insertA, lookupA, hkk]
    · by_cases h1 : k0 = k'
      · subst h1
        simp [insertA, lookupA, h0]
      · simp [insertA, lookupA, h0, h1, ih]

theorem lookupA_eq_none (l : Assoc) (k : String) (h : k ∉ l.map Prod.fst) :
    lookupA l k = none := by
  induction l with
  | nil => rfl
  | cons p t ih =>
    obtain ⟨k0, v0⟩ := p
    simp only [List.map_cons, List.mem_cons] at h
    push_neg at h
    simp [lookupA, Ne.symm h.1, ih h.2]

theorem mem_keys_of_lookupA {l : Assoc} {k : String} {v : Rec}
    (h : lookupA l k = some v) : k ∈ l.map Prod.fst := by
  by_contra hk
  rw [lookupA_eq_none l k hk] at h
  exact Option.noConfusion h

theorem lookupA_mem {l : Assoc} {k : String} {v : Rec}
    (h : lookupA l k = some v) : (k, v) ∈ l := by
  induction l with
  | nil => exact Option.noConfusion h
  | cons p t ih =>
    obtain ⟨k0, v0⟩ := p
    by_cases h0 : k0 = k
    · subst h0
      simp only [lookupA, if_true, eq_self_iff_true, Option.some.injEq] at h
      subst h
      exact List.mem_cons_self _ _
    · simp only [lookupA, if_neg h0] at h
      exact List.mem_cons_of_mem _ (ih h)

theorem lookupA_of_mem_nodup {l : Assoc} {k : String} {v : Rec}
    (hn : (l.map Prod.fst).Nodup) (hm : (k, v) ∈ l) : lookupA l k = some v := by
  induction l with
  | nil => cases hm
  | cons p t ih =>
    obtain ⟨k0, v0⟩ := p
    simp only [List.map_cons, List.nodup_cons] at hn
    rcases List.mem_cons.mp hm with h | h
    · injection h with h1 h2
      subst h1
      subst h2
      simp [lookupA]
    · have hk : k0 ≠ k := by
        intro he
        apply hn.1
        rw [he]
        exact List.mem_map.mpr ⟨(k, v), h, rfl⟩
      simp [lookupA, hk, ih hn.2 h]

theorem insertA_eq_append {l : Assoc} {k : String} (v : Rec)
    (h : k ∉ l.map Prod.fst) : insertA l k v = l ++ [(k, v)] := by
  induction l with
  | nil => rfl
  | cons p t ih =>
    obtain ⟨k0, v0⟩ := p
    simp only [List.map_cons, List.mem_cons] at h
    push_neg at h
    simp [insertA, Ne.symm h.1, ih h.2]

theorem insertA_self {l : Assoc} {k : String} {v : Rec}
    (h : lookupA l k = some v) : insertA l k v = l := by
  induction l with
  | nil => exact Option.noConfusion h
  | cons p t ih =>
    obtain ⟨k0, v0⟩ := p
    by_cases h0 : k0 = k
    · subst h0
      simp only [lookupA, if_true, eq_self_iff_true, Option.some.injEq] at h
      simp [insertA, h]
    · simp only [lookupA, if_neg h0] at h
      simp [insertA, h0, ih h]

theorem keys_insertA_of_mem {l : Assoc} {k : String} (v : Rec)
    (h : k ∈ l.map Prod.fst) :
    (insertA l k v).map Prod.fst = l.map Prod.fst := by
  induction l with
  | nil => cases h
  | cons p t ih =>
    obtain ⟨k0, v0⟩ := p
    by_cases h0 : k0 = k
    · subst h0
      simp [insertA]
    · simp only [List.map_cons, List.mem_cons] at h
      rcases h with h | h
      · exact absurd h.symm h0
      · simp [insertA, h0, ih h]

theorem nodup_keys_insertA {l : Assoc} {k : String} (v : Rec)
    (hn : (l.map Prod.fst).Nodup) : ((insertA l k v).map Prod.fst).Nodup := by
  by_cases h : k ∈ l.map Prod.fst
  · rw [keys_insertA_of_mem v h]
    exact hn
  · rw [insertA_eq_append v h]
    simp only [List.map_append, List.map_cons, List.map_nil]
    rw [List.nodup_append]
    exact ⟨hn, List.nodup_singleton _, by simpa using h⟩

theorem mem_insertA {l : Assoc} {k : String} {v : Rec} {p : String × Rec}
    (h : p ∈ insertA l k v) : p ∈ l ∨ p = (k, v) := by
  induction l with
  | nil =>
    simp only [insertA, List.mem_singleton] at h
    exact Or.inr h
  | cons q t ih =>
    obtain ⟨k0, v0⟩ := q
    by_cases h0 : k0 = k
    · subst h0
      simp [insertA] at h
      rcases h with h | h
      · exact Or.inr h
      · exact Or.inl (List.mem_cons_of_mem _ h)
    · simp only [insertA, if_neg h0, List.mem_cons] at h
      rcases h with h | h
      · exact Or.inl (List.mem_cons.mpr (Or.inl h))
      · rcases ih h with h' | h'
        · exact Or.inl (List.mem_cons_of_mem _ h')
        · exact Or.inr h'

/-! ## Lemmas about `backfill`, `newRec` and the evolution relations -/

theorem truthy_eq_true {o : Option String} :
    truthy o = true ↔ ∃ s, o = some s ∧ s ≠ "" := by
  cases o with
  | none => simp [truthy]
  | some s => simp [truthy]

theorem backfill_eq (s it : Rec) : backfill s it =
    { s with
      title := if !truthy s.title && truthy it.title then it.title else s.title
      body := if !truthy s.body && truthy it.body then it.body else s.body
      time_text := if !truthy s.time_text && truthy it.time_text then
        it.time_text else s.time_text } := by
  simp only [backfill]
  split_ifs <;> simp_all

theorem backfill_id (s it : Rec) : (backfill s it).id = s.id := by
  rw [backfill_eq]

theorem backfill_url (s it : Rec) : (backfill s it).url = s.url := by
  rw [backfill_eq]

theorem backfill_emailed (s it : Rec) : (backfill s it).emailed = s.emailed := by
  rw [backfill_eq]

theorem backfill_scraped_at (s it : Rec) :
    (backfill s it).scraped_at = s.scraped_at := by
  rw [backfill_eq]

theorem backfill_scraped_by (s it : Rec) :
    (backfill s it).scraped_by = s.scraped_by := by
  rw [backfill_eq]

theorem backfill_title (s it : Rec) : (backfill s it).title =
    if !truthy s.title && truthy it.title then it.title else s.title := by
  rw [backfill_eq]

theorem backfill_body (s it : Rec) : (backfill s it).body =
    if !truthy s.body && truthy it.body then it.body else s.body := by
  rw [backfill_eq]

theorem backfill_time_text (s it : Rec) : (backfill s it).time_text =
    if !truthy s.time_text && truthy it.time_text then
      it.time_text else s.time_text := by
  rw [backfill_eq]

theorem fieldRel_refl (a : Option String) : fieldRel a a :=
  Or.inl rfl

theorem fieldRel_trans {a b c : Option String}
    (h1 : fieldRel a b) (h2 : fieldRel b c) : fieldRel a c := by
  rcases h1 with h1 | h1
  · rcases h2 with h2 | h2
    · exact Or.inl (h2.trans h1)
    · rw [h1] at h2
      exact Or.inr h2
  · rcases h2 with h2 | h2
    · rw [h2]
      exact Or.inr h1
    · rw [h1.2] at h2
      exact absurd h2.1 (by simp)

theorem frameRel_refl (r : Rec) : frameRel r r :=
  ⟨rfl, rfl, rfl, rfl, rfl, fieldRel_refl _, fieldRel_refl _, fieldRel_refl _⟩

theorem frameRel_trans {r r' r'' : Rec}
    (h1 : frameRel r r') (h2 : frameRel r' r'') : frameRel r r'' := by
  obtain ⟨a1, b1, c1, d1, e1, f1, g1, i1⟩ := h1
  obtain ⟨a2, b2, c2, d2, e2, f2, g2, i2⟩ := h2
  exact ⟨a2.trans a1, b2.trans b1, c2.trans c1, d2.trans d1, e2.trans e1,
    fieldRel_trans f1 f2, fieldRel_trans g1 g2, fieldRel_trans i1 i2⟩

theorem frameRel_backfill (s it : Rec) : frameRel s (backfill s it) := by
  refine ⟨backfill_id s it, backfill_url s it, backfill_emailed s it,
    backfill_scraped_at s it, backfill_scraped_by s it, ?_, ?_, ?_⟩
  · rw [backfill_title]
    by_cases hc : (!truthy s.title && truthy it.title) = true
    · rw [if_pos hc]
      simp only [Bool.and_eq_true, Bool.not_eq_true'] at hc
      exact Or.inr ⟨hc.1, hc.2⟩
    · rw [if_neg hc]
      exact Or.inl rfl
  · rw [backfill_body]
    by_cases hc : (!truthy s.body && truthy it.body) = true
    · rw [if_pos hc]
      simp only [Bool.and_eq_true, Bool.not_eq_true'] at hc
      exact Or.inr ⟨hc.1, hc.2⟩
    · rw [if_neg hc]
      exact Or.inl rfl
  · rw [backfill_time_text]
    by_cases hc : (!truthy s.time_text && truthy it.time_text) = true
    · rw [if_pos hc]
      simp only [Bool.and_eq_true, Bool.not_eq_true'] at hc
      exact Or.inr ⟨hc.1, hc.2⟩
    · rw [if_neg hc]
      exact Or.inl rfl

theorem backfill_of_saturated {s it : Rec} (h : Saturated s it) :
    backfill s it = s := by
  obtain ⟨h1, h2, h3⟩ := h
  rw [backfill_eq]
  have e1 : (!truthy s.title && truthy it.title) = false := by
    cases ht : truthy it.title
    · simp
    · simp [h1 ht]
  have e2 : (!truthy s.body && truthy it.body) = false := by
    cases ht : truthy it.body
    · simp
    · simp [h2 ht]
  have e3 : (!truthy s.time_text && truthy it.time_text) = false := by
    cases ht : truthy it.time_text
    · simp
    · simp [h3 ht]
  simp [e1, e2, e3]

theorem saturated_backfill (s it : Rec) : Saturated (backfill s it) it := by
  refine ⟨?_, ?_, ?_⟩
  · intro ht
    rw [backfill_title]
    cases hs : truthy s.title
    · simp [hs, ht]
    · simp [hs, ht]
  · intro ht
    rw [backfill_body]
    cases hs : truthy s.body
    · simp [hs, ht]
    · simp [hs, ht]
  · intro ht
    rw [backfill_time_text]
    cases hs : truthy s.time_text
    · simp [hs, ht]
    · simp [hs, ht]

theorem saturated_of_frameRel {r r' it : Rec}
    (hs : Saturated r it) (hf : frameRel r r') : Saturated r' it := by
  obtain ⟨_, _, _, _, _, f1, f2, f3⟩ := hf
  refine ⟨fun ht => ?_, fun ht => ?_, fun ht => ?_⟩
  · rcases f1 with h | h
    · rw [h]
      exact hs.1 ht
    · exact h.2
  · rcases f2 with h | h
    · rw [h]
      exact hs.2.1 ht
    · exact h.2
  · rcases f3 with h | h
    · rw [h]
      exact hs.2.2 ht
    · exact h.2

theorem idOf_eq_some {r : Rec} {i : String} :
    idOf r = some i ↔ r.id = some i ∧ i ≠ "" := by
  cases hr : r.id with
  | none => simp [idOf, hr]
  | some j =>
    by_cases hj : j = ""
    · subst hj
      rw [show idOf r = none by simp [idOf, hr]]
      constructor
      · intro hc
        exact Option.noConfusion hc
      · rintro ⟨h1, h2⟩
        injection h1 with h1
        exact absurd h1.symm h2
    · rw [show idOf r = some j by simp [idOf, hr, hj]]
      constructor
      · intro hc
        injection hc with hc
        subst hc
        exact ⟨rfl, hj⟩
      · rintro ⟨h1, _⟩
        exact h1

theorem idOf_backfill (s it : Rec) : idOf (backfill s it) = idOf s := by
  simp [idOf, backfill_id]

theorem idOf_newRec {i : String} (it : Rec) (tag now : String) (h : i ≠ "") :
    idOf (newRec i it tag now) = some i := by
  simp [idOf, newRec, h]

theorem saturated_newRec (i : String) (it : Rec) (tag now : String) :
    Saturated (newRec i it tag now) it := by
  refine ⟨fun ht => ?_, fun ht => ?_, fun ht => ?_⟩
  · rcases truthy_eq_true.mp ht with ⟨s, hs, hne⟩
    simp [newRec, truthy, orEmpty, hs, hne]
  · rcases truthy_eq_true.mp ht with ⟨s, hs, hne⟩
    simp [newRec, truthy, orEmpty, hs, hne]
  · simpa [newRec] using ht

theorem newShape_newRec (i : String) (it : Rec) (tag now : String) :
    NewShape tag now i (newRec i it tag now) := by
  refine ⟨rfl, ⟨orEmpty it.title, rfl⟩, ⟨orEmpty it.body, rfl⟩,
    ⟨orEmpty it.url, rfl⟩, rfl, rfl, rfl⟩

theorem newShape_of_frameRel {tag now i : String} {r r' : Rec}
    (hs : NewShape tag now i r) (hf : frameRel r r') : NewShape tag now i r' := by
  obtain ⟨h1, h2, h3, h4, h5, h6, h7⟩ := hs
  obtain ⟨a1, b1, c1, d1, e1, f1, f2, _⟩ := hf
  refine ⟨a1.trans h1, ?_, ?_, ?_, d1.trans h5, e1.trans h6, c1.trans h7⟩
  · rcases f1 with h | h
    · exact h ▸ h2
    · rcases truthy_eq_true.mp h.2 with ⟨s, hs', _⟩
      exact ⟨s, hs'⟩
  · rcases f2 with h | h
    · exact h ▸ h3
    · rcases truthy_eq_true.mp h.2 with ⟨s, hs', _⟩
      exact ⟨s, hs'⟩
  · rcases h4 with ⟨s, hs'⟩
    exact ⟨s, b1.trans hs'⟩

/-! ## Lemmas about `Frames` and `index_articles` -/

theorem frames_refl (l : Assoc) : Frames l l := by
  induction l with
  | nil => trivial
  | cons p t ih =>
    obtain ⟨k, v⟩ := p
    exact ⟨rfl, frameRel_refl v, ih⟩

theorem frames_append {i c : Assoc} (d : Assoc) (h : Frames i c) :
    Frames i (c ++ d) := by
  induction i generalizing c with
  | nil => trivial
  | cons p t ih =>
    obtain ⟨k, v⟩ := p
    cases c with
    | nil => cases h
    | cons q c' =>
      obtain ⟨k', v'⟩ := q
      obtain ⟨h1, h2, h3⟩ := h
      exact ⟨h1, h2, ih h3⟩

theorem frames_insertA {i c : Assoc} {k : String} {v w : Rec}
    (h : Frames i c) (hl : lookupA c k = some v) (hr : frameRel v w) :
    Frames i (insertA c k w) := by
  induction i generalizing c with
  | nil => trivial
  | cons p t ih =>
    obtain ⟨k0, u⟩ := p
    cases c with
    | nil => cases h
    | cons q c' =>
      obtain ⟨k', v'⟩ := q
      obtain ⟨h1, h2, h3⟩ := h
      subst h1
      by_cases hk : k' = k
      · subst hk
        simp only [lookupA, if_true, eq_self_iff_true, Option.some.injEq] at hl
        subst hl
        simp only [insertA, if_true, eq_self_iff_true]
        exact ⟨rfl, frameRel_trans h2 hr, h3⟩
      · simp only [lookupA, if_neg hk] at hl
        simp only [insertA, if_neg hk]
        exact ⟨rfl, h2, ih h3 hl⟩

theorem frames_length {i c : Assoc} (h : Frames i c) : i.length ≤ c.length := by
  induction i generalizing c with
  | nil => simp
  | cons p t ih =>
    obtain ⟨k, v⟩ := p
    cases c with
    | nil => cases h
    | cons q c' =>
      obtain ⟨h1, h2, h3⟩ := h
      simpa using ih h3

theorem frames_take_keys {i c : Assoc} (h : Frames i c) :
    (c.take i.length).map Prod.fst = i.map Prod.fst := by
  induction i generalizing c with
  | nil => simp
  | cons p t ih =>
    obtain ⟨k, v⟩ := p
    cases c with
    | nil => cases h
    | cons q c' =>
      obtain ⟨k', v'⟩ := q
      obtain ⟨h1, h2, h3⟩ := h
      subst h1
      simpa using ih h3

theorem frames_lookup {i c : Assoc} (h : Frames i c)
    (hn : (i.map Prod.fst).Nodup) {k : String} {v : Rec}
    (hl : lookupA i k = some v) :
    ∃ v', lookupA c k = some v' ∧ frameRel v v' := by
  induction i generalizing c with
  | nil => exact Option.noConfusion hl
  | cons p t ih =>
    obtain ⟨k0, u⟩ := p
    cases c with
    | nil => cases h
    | cons q c' =>
      obtain ⟨k', v'⟩ := q
      obtain ⟨h1, h2, h3⟩ := h
      subst h1
      simp only [List.map_cons, List.nodup_cons] at hn
      by_cases hk : k' = k
      · subst hk
        simp only [lookupA, if_true, eq_self_iff_true, Option.some.injEq] at hl
        subst hl
        exact ⟨v', by simp [lookupA], h2⟩
      · simp only [lookupA, if_neg hk] at hl
        rcases ih h3 hn.2 hl with ⟨w, hw1, hw2⟩
        exact ⟨w, by simp [lookupA, hk, hw1], hw2⟩

theorem indexFold_mem (acc : Assoc) (arts : List Rec)
    (hacc : ∀ p ∈ acc, idOf p.2 = some p.1) :
    ∀ p ∈ indexFold acc arts, idOf p.2 = some p.1 := by
  induction arts generalizing acc with
  | nil => exact hacc
  | cons item t ih =>
    cases hid : idOf item with
    | none =>
      simpa [indexFold, hid] using ih acc hacc
    | some i =>
      simp only [indexFold, hid]
      apply ih
      intro p hp
      rcases mem_insertA hp with hp' | hp'
      · exact hacc p hp'
      · subst hp'
        exact hid

theorem index_articles_ids (arts : List Rec) :
    ∀ p ∈ index_articles arts, idOf p.2 = some p.1 :=
  indexFold_mem [] arts (by intro p hp; cases hp)

theorem indexFold_nodup (acc : Assoc) (arts : List Rec)
    (hacc : (acc.map Prod.fst).Nodup) :
    ((indexFold acc arts).map Prod.fst).Nodup := by
  induction arts generalizing acc with
  | nil => exact hacc
  | cons item t ih =>
    cases hid : idOf item with
    | none => simpa [indexFold, hid] using ih acc hacc
    | some i =>
      simp only [indexFold, hid]
      exact ih _ (nodup_keys_insertA _ hacc)

theorem index_articles_nodup (arts : List Rec) :
    ((index_articles arts).map Prod.fst).Nodup :=
  indexFold_nodup [] arts List.nodup_nil

theorem indexFold_of_wf (a : Assoc) (acc : Assoc)
    (hn : ((acc ++ a).map Prod.fst).Nodup)
    (hi : ∀ p ∈ a, idOf p.2 = some p.1) :
    indexFold acc (a.map Prod.snd) = acc ++ a := by
  induction a generalizing acc with
  | nil => simp [indexFold]
  | cons p t ih =>
    obtain ⟨k, v⟩ := p
    have hkv : idOf v = some k := hi (k, v) (List.mem_cons_self _ _)
    simp only [List.map_cons, indexFold, hkv]
    have hknotin : k ∉ acc.map Prod.fst := by
      have hn' := hn
      rw [List.map_append] at hn'
      rcases List.nodup_append.mp hn' with ⟨_, _, hdisj⟩
      intro hk
      exact hdisj hk (by simp)
    rw [insertA_eq_append v hknotin]
    have := ih (acc ++ [(k, v)]) (by simpa using hn)
      (fun p hp => hi p (List.mem_cons_of_mem _ hp))
    rw [this]
    simp

theorem index_articles_of_wf (a : Assoc)
    (hn : (a.map Prod.fst).Nodup)
    (hi : ∀ p ∈ a, idOf p.2 = some p.1) :
    index_articles (a.map Prod.snd) = a :=
  indexFold_of_wf a [] (by simpa using hn) hi

/-! ## Lemmas about the merge loop -/

theorem lookupA_isSome {l : Assoc} {k : String} (h : k ∈ l.map Prod.fst) :
    ∃ v, lookupA l k = some v := by
  induction l with
  | nil => cases h
  | cons p t ih =>
    obtain ⟨k0, v0⟩ := p
    by_cases h0 : k0 = k
    · exact ⟨v0, by simp [lookupA, h0]⟩
    · simp only [List.map_cons, List.mem_cons] at h
      rcases h with h | h
      · exact absurd h.symm h0
      · rcases ih h with ⟨v, hv⟩
        exact ⟨v, by simp [lookupA, h0, hv]⟩

theorem not_mem_keys_of_lookupA_none {l : Assoc} {k : String}
    (h : lookupA l k = none) : k ∉ l.map Prod.fst := by
  intro hk
  rcases lookupA_isSome hk with ⟨v, hv⟩
  rw [hv] at h
  exact Option.noConfusion h

theorem mergeFold_append (tag now : String) (B1 B2 : List Rec)
    (st : Assoc × List String) :
    mergeFold tag now st (B1 ++ B2) =
      mergeFold tag now (mergeFold tag now st B1) B2 := by
  induction B1 generalizing st with
  | nil => rfl
  | cons item t ih => simpa [mergeFold] using ih (mergeStep tag now st item)

theorem mergeStep_lookup_mono (tag now : String) (st : Assoc × List String)
    (item : Rec) {k : String} {v : Rec} (h : lookupA st.1 k = some v) :
    ∃ v', lookupA (mergeStep tag now st item).1 k = some v' ∧ frameRel v v' := by
  cases hid : idOf item with
  | none => exact ⟨v, by simp [mergeStep, hid, h], frameRel_refl v⟩
  | some i =>
    cases hli : lookupA st.1 i with
    | some stored =>
      by_cases hk : k = i
      · subst hk
        rw [h] at hli
        injection hli with hli
        subst hli
        exact ⟨backfill v item,
          by simp [mergeStep, hid, h, lookupA_insertA_self],
          frameRel_backfill v item⟩
      · exact ⟨v,
          by simp [mergeStep, hid, hli, lookupA_insertA_ne _ _ hk, h],
          frameRel_refl v⟩
    | none =>
      have hk : k ≠ i := by
        intro he
        rw [he, hli] at h
        exact Option.noConfusion h
      exact ⟨v,
        by simp [mergeStep, hid, hli, lookupA_insertA_ne _ _ hk, h],
        frameRel_refl v⟩

theorem mergeFold_lookup_mono (tag now : String) (B : List Rec)
    (st : Assoc × List String) {k : String} {v : Rec}
    (h : lookupA st.1 k = some v) :
    ∃ v', lookupA (mergeFold tag now st B).1 k = some v' ∧ frameRel v v' := by
  induction B generalizing st v with
  | nil => exact ⟨v, h, frameRel_refl v⟩
  | cons item t ih =>
    rcases mergeStep_lookup_mono tag now st item h with ⟨v1, hv1, hf1⟩
    rcases ih (mergeStep tag now st item) hv1 with ⟨v2, hv2, hf2⟩
    exact ⟨v2, hv2, frameRel_trans hf1 hf2⟩

theorem inv_step {tag now : String} {init : Assoc}
    (hin : (init.map Prod.fst).Nodup)
    {st : Assoc × List String} (hI : Inv tag now init st) (item : Rec) :
    Inv tag now init (mergeStep tag now st item) := by
  obtain ⟨a, ks⟩ := st
  cases hid : idOf item with
  | none =>
    simpa [mergeStep, hid] using hI
  | some i =>
    have hine : i ≠ "" := (idOf_eq_some.mp hid).2
    cases hli : lookupA a i with
    | some stored =>
      have hstep : mergeStep tag now (a, ks) item =
          (insertA a i (backfill stored item), ks) := by
        simp [mergeStep, hid, hli]
      rw [hstep]
      have hmem : (i, stored) ∈ a := lookupA_mem hli
      refine ⟨nodup_keys_insertA _ hI.nodup, ?_, ?_, ?_, ?_, hI.cfresh⟩
      · intro p hp
        rcases mem_insertA hp with hp' | hp'
        · exact hI.ids p hp'
        · subst hp'
          rw [idOf_backfill]
          exact hI.ids (i, stored) hmem
      · exact frames_insertA hI.frames hli (frameRel_backfill stored item)
      · have hks : (insertA a i (backfill stored item)).map Prod.fst =
            a.map Prod.fst :=
          keys_insertA_of_mem _ (mem_keys_of_lookupA hli)
        calc ks = (a.drop init.length).map Prod.fst := hI.ckeys
          _ = (a.map Prod.fst).drop init.length := by rw [List.map_drop]
          _ = ((insertA a i (backfill stored item)).map Prod.fst).drop
              init.length := by rw [hks]
          _ = ((insertA a i (backfill stored item)).drop init.length).map
              Prod.fst := by rw [List.map_drop]
      · intro j hj
        rcases hI.cnew j hj with ⟨r, hr1, hr2⟩
        rcases mergeStep_lookup_mono tag now (a, ks) item hr1 with ⟨r', hr1', hf⟩
        rw [hstep] at hr1'
        exact ⟨r', hr1', newShape_of_frameRel hr2 hf⟩
    | none =>
      have hnotin : i ∉ a.map Prod.fst := not_mem_keys_of_lookupA_none hli
      have happ : insertA a i (newRec i item tag now) =
          a ++ [(i, newRec i item tag now)] := insertA_eq_append _ hnotin
      have hstep : mergeStep tag now (a, ks) item =
          (insertA a i (newRec i item tag now), ks ++ [i]) := by
        simp [mergeStep, hid, hli]
      rw [hstep]
      refine ⟨nodup_keys_insertA _ hI.nodup, ?_, ?_, ?_, ?_, ?_⟩
      · intro p hp
        rcases mem_insertA hp with hp' | hp'
        · exact hI.ids p hp'
        · subst hp'
          exact idOf_newRec item tag now hine
      · rw [happ]
        exact frames_append _ hI.frames
      · rw [happ]
        have hlen : init.length ≤ a.length := frames_length hI.frames
        rw [List.drop_append_of_le_length hlen, List.map_append, ← hI.ckeys]
        simp
      · intro j hj
        rcases List.mem_append.mp hj with hj' | hj'
        · rcases hI.cnew j hj' with ⟨r, hr1, hr2⟩
          rcases mergeStep_lookup_mono tag now (a, ks) item hr1 with
            ⟨r', hr1', hf⟩
          rw [hstep] at hr1'
          exact ⟨r', hr1', newShape_of_frameRel hr2 hf⟩
        · rw [List.mem_singleton.mp hj']
          exact ⟨newRec i item tag now, lookupA_insertA_self a i _,
            newShape_newRec i item tag now⟩
      · intro j hj
        rcases List.mem_append.mp hj with hj' | hj'
        · exact hI.cfresh j hj'
        · rw [List.mem_singleton.mp hj']
          cases hlj : lookupA init i with
          | none => rfl
          | some v =>
            rcases frames_lookup hI.frames hin hlj with ⟨v', hv', _⟩
            rw [hv'] at hli
            exact Option.noConfusion hli

theorem inv_fold {tag now : String} {init : Assoc}
    (hin : (init.map Prod.fst).Nodup) (B : List Rec)
    {st : Assoc × List String} (hI : Inv tag now init st) :
    Inv tag now init (mergeFold tag now st B) := by
  induction B generalizing st with
  | nil => exact hI
  | cons item t ih => exact ih (inv_step hin hI item)

theorem inv_init {tag now : String} {a : Assoc}
    (hn : (a.map Prod.fst).Nodup) (hi : ∀ p ∈ a, idOf p.2 = some p.1) :
    Inv tag now a (a, []) := by
  refine ⟨hn, hi, frames_refl a, ?_, ?_, ?_⟩
  · simp
  · intro i hi'
    cases hi'
  · intro i hi'
    cases hi'

theorem mergeStep_sat (tag now : String) (st : Assoc × List String)
    {item : Rec} {i : String} (hid : idOf item = some i) :
    ∃ r, lookupA (mergeStep tag now st item).1 i = some r ∧ Saturated r item := by
  cases hli : lookupA st.1 i with
  | some stored =>
    exact ⟨backfill stored item,
      by simp [mergeStep, hid, hli, lookupA_insertA_self],
      saturated_backfill stored item⟩
  | none =>
    exact ⟨newRec i item tag now,
      by simp [mergeStep, hid, hli, lookupA_insertA_self],
      saturated_newRec i item tag now⟩

theorem mergeFold_sat (tag now : String) (B : List Rec)
    (st : Assoc × List String) {b : Rec} {i : String}
    (hb : b ∈ B) (hid : idOf b = some i) :
    ∃ r, lookupA (mergeFold tag now st B).1 i = some r ∧ Saturated r b := by
  induction B generalizing st with
  | nil => cases hb
  | cons item t ih =>
    rcases List.mem_cons.mp hb with hb' | hb'
    · subst hb'
      rcases mergeStep_sat tag now st hid with ⟨r, hr, hsat⟩
      rcases mergeFold_lookup_mono tag now t (mergeStep tag now st b) hr with
        ⟨r', hr', hf⟩
      exact ⟨r', by simpa [mergeFold] using hr', saturated_of_frameRel hsat hf⟩
    · rcases ih (mergeStep tag now st item) hb' with ⟨r, hr, hsat⟩
      exact ⟨r, by simpa [mergeFold] using hr, hsat⟩

theorem mergeFold_noop (tag now : String) (B : List Rec) (a : Assoc)
    (ks : List String)
    (hsat : ∀ b ∈ B, ∀ i, idOf b = some i →
      ∃ r, lookupA a i = some r ∧ Saturated r b) :
    mergeFold tag now (a, ks) B = (a, ks) := by
  induction B with
  | nil => rfl
  | cons item t ih =>
    have hstep : mergeStep tag now (a, ks) item = (a, ks) := by
      cases hid : idOf item with
      | none => simp [mergeStep, hid]
      | some i =>
        rcases hsat item (List.mem_cons_self _ _) i hid with ⟨r, hr, hrs⟩
        simp [mergeStep, hid, hr, backfill_of_saturated hrs, insertA_self hr]
    calc mergeFold tag now (a, ks) (item :: t)
        = mergeFold tag now (mergeStep tag now (a, ks) item) t := rfl
      _ = mergeFold tag now (a, ks) t := by rw [hstep]
      _ = (a, ks) := ih (fun b hb => hsat b (List.mem_cons_of_mem _ hb))

theorem mergeFold_created_sub (tag now : String) (B : List Rec)
    (st : Assoc × List String) :
    ∃ ext, (mergeFold tag now st B).2 = st.2 ++ ext ∧
      List.Sublist ext (B.filterMap idOf) := by
  induction B generalizing st with
  | nil => exact ⟨[], by simp [mergeFold], List.nil_sublist _⟩
  | cons item t ih =>
    cases hid : idOf item with
    | none =>
      rcases ih (mergeStep tag now st item) with ⟨ext, he, hs⟩
      refine ⟨ext, ?_, ?_⟩
      · rw [show (mergeStep tag now st item).2 = st.2 by
          simp [mergeStep, hid]] at he
        exact he
      · rw [List.filterMap_cons_none hid]
        exact hs
    | some i =>
      cases hli : lookupA st.1 i with
      | some stored =>
        rcases ih (mergeStep tag now st item) with ⟨ext, he, hs⟩
        refine ⟨ext, ?_, ?_⟩
        · rw [show (mergeStep tag now st item).2 = st.2 by
            simp [mergeStep, hid, hli]] at he
          exact he
        · rw [List.filterMap_cons_some hid]
          exact hs.trans (List.sublist_cons_self i _)
      | none =>
        rcases ih (mergeStep tag now st item) with ⟨ext, he, hs⟩
        refine ⟨i :: ext, ?_, ?_⟩
        · show (mergeFold tag now (mergeStep tag now st item) t).2 =
            st.2 ++ i :: ext
          rw [show (mergeStep tag now st item).2 = st.2 ++ [i] by
            simp [mergeStep, hid, hli]] at he
          rw [he]
          simp
        · rw [List.filterMap_cons_some hid]
          exact List.Sublist.cons₂ i hs

theorem mergeFold_created_exact (tag now : String) (Q : Rec → Prop)
    (B : List Rec) (hQ : ∀ b ∈ B, Q b) (hnd : (B.filterMap idOf).Nodup)
    (st : Assoc × List String)
    (hst : ∀ i ∈ st.2, i ∉ B.filterMap idOf ∧
      ∃ b, Q b ∧ idOf b = some i ∧
        lookupA st.1 i = some (newRec i b tag now)) :
    ∀ i ∈ (mergeFold tag now st B).2, ∃ b, Q b ∧ idOf b = some i ∧
      lookupA (mergeFold tag now st B).1 i = some (newRec i b tag now) := by
  induction B generalizing st with
  | nil => exact fun i hi => (hst i hi).2
  | cons item t ih =>
    have hQt : ∀ b ∈ t, Q b := fun b hb => hQ b (List.mem_cons_of_mem _ hb)
    cases hid : idOf item with
    | none =>
      rw [List.filterMap_cons_none hid] at hnd hst
      have hstep : mergeStep tag now st item = st := by
        obtain ⟨a, ks⟩ := st
        simp [mergeStep, hid]
      intro i hi
      rw [show mergeFold tag now st (item :: t) =
        mergeFold tag now st t by rw [show mergeFold tag now st (item :: t) =
          mergeFold tag now (mergeStep tag now st item) t from rfl, hstep]] at hi ⊢
      exact ih hQt hnd st hst i hi
    | some j =>
      rw [List.filterMap_cons_some hid] at hnd hst
      have hj : j ∉ t.filterMap idOf := (List.nodup_cons.mp hnd).1
      have hndt : (t.filterMap idOf).Nodup := (List.nodup_cons.mp hnd).2
      obtain ⟨a, ks⟩ := st
      cases hli : lookupA a j with
      | some stored =>
        have hstep : mergeStep tag now (a, ks) item =
            (insertA a j (backfill stored item), ks) := by
          simp [mergeStep, hid, hli]
        intro i hi
        rw [show mergeFold tag now (a, ks) (item :: t) =
          mergeFold tag now (mergeStep tag now (a, ks) item) t from rfl,
          hstep] at hi ⊢
        refine ih hQt hndt _ ?_ i hi
        intro i' hi'
        rcases hst i' hi' with ⟨hi'1, b, hb1, hb2, hb3⟩
        have hne : i' ≠ j := by
          intro he
          exact hi'1 (by rw [he]; exact List.mem_cons_self _ _)
        refine ⟨fun hmem => hi'1 (List.mem_cons_of_mem _ hmem), b, hb1, hb2, ?_⟩
        rw [lookupA_insertA_ne _ _ hne]
        exact hb3
      | none =>
        have hstep : mergeStep tag now (a, ks) item =
            (insertA a j (newRec j item tag now), ks ++ [j]) := by
          simp [mergeStep, hid, hli]
        intro i hi
        rw [show mergeFold tag now (a, ks) (item :: t) =
          mergeFold tag now (mergeStep tag now (a, ks) item) t from rfl,
          hstep] at hi ⊢
        refine ih hQt hndt _ ?_ i hi
        intro i' hi'
        rcases List.mem_append.mp hi' with hi'' | hi''
        · rcases hst i' hi'' with ⟨hi'1, b, hb1, hb2, hb3⟩
          have hne : i' ≠ j := by
            intro he
            exact hi'1 (by rw [he]; exact List.mem_cons_self _ _)
          refine ⟨fun hmem => hi'1 (List.mem_cons_of_mem _ hmem), b, hb1, hb2, ?_⟩
          rw [lookupA_insertA_ne _ _ hne]
          exact hb3
        · rw [List.mem_singleton.mp hi'']
          exact ⟨hj, item, hQ item (List.mem_cons_self _ _), hid,
            lookupA_insertA_self a j _⟩

theorem fieldRel_eq_of_truthy {a b : Option String}
    (h : fieldRel a b) (ht : truthy a = true) : b = a := by
  rcases h with h | h
  · exact h
  · rw [ht] at h
    exact absurd h.1 (by simp)

theorem ff_keep (tag now : String) (get : Rec → Option String)
    (hkeep : ∀ s it, truthy (get it) = false → get (backfill s it) = get s)
    (B : List Rec) (st : Assoc × List String) {k : String} {v : Rec}
    (hv : lookupA st.1 k = some v)
    (hB : ∀ b ∈ B, idOf b = some k → truthy (get b) = false) :
    ∃ v', lookupA (mergeFold tag now st B).1 k = some v' ∧ get v' = get v := by
  induction B generalizing st v with
  | nil => exact ⟨v, hv, rfl⟩
  | cons item t ih =>
    have hstep : ∃ v1, lookupA (mergeStep tag now st item).1 k = some v1 ∧
        get v1 = get v := by
      cases hid : idOf item with
      | none => exact ⟨v, by simp [mergeStep, hid, hv], rfl⟩
      | some i =>
        cases hli : lookupA st.1 i with
        | some stored =>
          by_cases hk : k = i
          · subst hk
            rw [hv] at hli
            injection hli with hli
            subst hli
            exact ⟨backfill v item,
              by simp [mergeStep, hid, hv, lookupA_insertA_self],
              hkeep v item (hB item (List.mem_cons_self _ _) hid)⟩
          · exact ⟨v,
              by simp [mergeStep, hid, hli, lookupA_insertA_ne _ _ hk, hv], rfl⟩
        | none =>
          have hk : k ≠ i := by
            intro he
            rw [he, hli] at hv
            exact Option.noConfusion hv
          exact ⟨v,
            by simp [mergeStep, hid, hli, lookupA_insertA_ne _ _ hk, hv], rfl⟩
    rcases hstep with ⟨v1, hv1, he1⟩
    rcases ih (mergeStep tag now st item) hv1
      (fun b hb h => hB b (List.mem_cons_of_mem _ hb) h) with ⟨v', hv', he'⟩
    exact ⟨v', by simpa [mergeFold] using hv', he'.trans he1⟩

theorem ff_stable (tag now : String) (get : Rec → Option String)
    (hstable : ∀ s it, truthy (get s) = true → get (backfill s it) = get s)
    (B : List Rec) (st : Assoc × List String) {k : String} {v : Rec}
    (hv : lookupA st.1 k = some v) (ht : truthy (get v) = true) :
    ∃ v', lookupA (mergeFold tag now st B).1 k = some v' ∧ get v' = get v := by
  induction B generalizing st v with
  | nil => exact ⟨v, hv, rfl⟩
  | cons item t ih =>
    have hstep : ∃ v1, lookupA (mergeStep tag now st item).1 k = some v1 ∧
        get v1 = get v := by
      cases hid : idOf item with
      | none => exact ⟨v, by simp [mergeStep, hid, hv], rfl⟩
      | some i =>
        cases hli : lookupA st.1 i with
        | some stored =>
          by_cases hk : k = i
          · subst hk
            rw [hv] at hli
            injection hli with hli
            subst hli
            exact ⟨backfill v item,
              by simp [mergeStep, hid, hv, lookupA_insertA_self],
              hstable v item ht⟩
          · exact ⟨v,
              by simp [mergeStep, hid, hli, lookupA_insertA_ne _ _ hk, hv], rfl⟩
        | none =>
          have hk : k ≠ i := by
            intro he
            rw [he, hli] at hv
            exact Option.noConfusion hv
          exact ⟨v,
            by simp [mergeStep, hid, hli, lookupA_insertA_ne _ _ hk, hv], rfl⟩
    rcases hstep with ⟨v1, hv1, he1⟩
    rcases ih (mergeStep tag now st item) hv1 (by rw [he1]; exact ht) with
      ⟨v', hv', he'⟩
    exact ⟨v', by simpa [mergeFold] using hv', he'.trans he1⟩

theorem filterMap_lookup_of_pairs (a : Assoc) (l2 : Assoc)
    (h : ∀ p ∈ l2, lookupA a p.1 = some p.2) :
    (l2.map Prod.fst).filterMap (fun k => lookupA a k) = l2.map Prod.snd := by
  induction l2 with
  | nil => rfl
  | cons p t ih =>
    obtain ⟨k, v⟩ := p
    have hk : lookupA a k = some v := h (k, v) (List.mem_cons_self _ _)
    simp only [List.map_cons, List.filterMap_cons, hk]
    rw [ih (fun q hq => h q (List.mem_cons_of_mem _ hq))]

theorem map_id_of_ids (l : Assoc) (h : ∀ p ∈ l, idOf p.2 = some p.1) :
    (l.map Prod.snd).map Rec.id = (l.map Prod.fst).map some := by
  induction l with
  | nil => rfl
  | cons p t ih =>
    obtain ⟨k, v⟩ := p
    have hk : v.id = some k :=
      (idOf_eq_some.mp (h (k, v) (List.mem_cons_self _ _))).1
    simp only [List.map_cons, hk]
    rw [ih (fun q hq => h q (List.mem_cons_of_mem _ hq))]

theorem map_id_filterMap_lookup (a : Assoc) (ks : List String)
    (h : ∀ i ∈ ks, ∃ r, lookupA a i = some r ∧ r.id = some i) :
    (ks.filterMap (fun k => lookupA a k)).map Rec.id = ks.map some := by
  induction ks with
  | nil => rfl
  | cons i t ih =>
    rcases h i (List.mem_cons_self _ _) with ⟨r, hr1, hr2⟩
    simp only [List.filterMap_cons, hr1, List.map_cons, hr2]
    rw [ih (fun j hj => h j (List.mem_cons_of_mem _ hj))]

theorem merge_articles_eq (E B : List Rec) (tag now : String) :
    merge_articles E B tag now =
      ((mergeFold tag now (index_articles E, []) B).1.map Prod.snd,
       (mergeFold tag now (index_articles E, []) B).2.filterMap
         (fun k => lookupA (mergeFold tag now (index_articles E, []) B).1 k)) :=
  rfl

theorem inv_merge (E B : List Rec) (tag now : String) :
    Inv tag now (index_articles E)
      (mergeFold tag now (index_articles E, []) B) :=
  inv_fold (index_articles_nodup E) B
    (inv_init (index_articles_nodup E) (index_articles_ids E))

theorem index_articles_merge (E B : List Rec) (tag now : String) :
    index_articles (merge_articles E B tag now).1 =
      (mergeFold tag now (index_articles E, []) B).1 := by
  have hI := inv_merge E B tag now
  rw [merge_articles_eq]
  exact index_articles_of_wf _ hI.nodup hI.ids

/-! ## Claim C1: merging the same batch twice is idempotent -/

/-- C1.  Merging the same batch of candidate records into a collection
twice yields the same collection as merging it once, and the second
merge returns an empty list of created records: if
`merge_articles E B tag` returns the merged collection `M`, then
`merge_articles M B tag` (at any later timestamp) returns `(M, [])`. -/
theorem merge_articles_idempotent (E B : List Rec) (tag now now2 : String) :
    merge_articles (merge_articles E B tag now).1 B tag now2 =
      ((merge_articles E B tag now).1, []) := by
  have hsat : ∀ b ∈ B, ∀ i, idOf b = some i →
      ∃ r, lookupA (mergeFold tag now (index_articles E, []) B).1 i = some r ∧
        Saturated r b :=
    fun b hb i hid => mergeFold_sat tag now B _ hb hid
  have hnoop : mergeFold tag now2
      ((mergeFold tag now (index_articles E, []) B).1, []) B =
      ((mergeFold tag now (index_articles E, []) B).1, []) :=
    mergeFold_noop tag now2 B _ [] hsat
  rw [merge_articles_eq ((merge_articles E B tag now).1) B tag now2,
    index_articles_merge E B tag now, hnoop]
  rw [merge_articles_eq E B tag now]
  simp

/-! ## Claim C2: backfill never clobbers populated fields -/

/-- C2.  For every stored record (the record the merge's id-lookup holds
for key `k`), merging any batch leaves an already-populated `title`,
`body` or `time_text` unchanged on that record; in particular a stored
non-empty `body` survives a candidate with the same id and a different
non-empty `body`. -/
theorem merge_articles_never_clobbers (E B : List Rec) (tag now k : String)
    (r : Rec) (hk : lookupA (index_articles E) k = some r) :
    ∃ r', lookupA (index_articles (merge_articles E B tag now).1) k = some r' ∧
      (truthy r.title = true → r'.title = r.title) ∧
      (truthy r.body = true → r'.body = r.body) ∧
      (truthy r.time_text = true → r'.time_text = r.time_text) := by
  rcases mergeFold_lookup_mono tag now B (index_articles E, []) hk with
    ⟨r', hr', hf⟩
  obtain ⟨_, _, _, _, _, ft, fb, ftt⟩ := hf
  refine ⟨r', by rw [index_articles_merge]; exact hr', ?_, ?_, ?_⟩
  · exact fun ht => fieldRel_eq_of_truthy ft ht
  · exact fun ht => fieldRel_eq_of_truthy fb ht
  · exact fun ht => fieldRel_eq_of_truthy ftt ht

/-- Witness for C2 at a concrete store and batch: a stored record with
body `"B1"` keeps it against a candidate carrying body `"B2"`. -/
theorem merge_articles_never_clobbers_witness :
    (lookupA
        (index_articles
          [{ id := some "a", title := some "T1", body := some "B1",
             time_text := some "10:00" }]) "a" =
      some
        { id := some "a", title := some "T1", body := some "B1",
          time_text := some "10:00" }) ∧
    (∃ r', lookupA
        (index_articles
          (merge_articles
            [{ id := some "a", title := some "T1", body := some "B1",
               time_text := some "10:00" }]
            [{ id := some "a", title := some "T2", body := some "B2",
               time_text := some "11:00" }]
            "manual" "2025-01-01T00:00:00").1) "a" = some r' ∧
      (truthy (Rec.title
          { id := some "a", title := some "T1", body := some "B1",
            time_text := some "10:00" }) = true → r'.title = some "T1") ∧
      (truthy (Rec.body
          { id := some "a", title := some "T1", body := some "B1",
            time_text := some "10:00" }) = true → r'.body = some "B1") ∧
      (truthy (Rec.time_text
          { id := some "a", title := some "T1", body := some "B1",
            time_text := some "10:00" }) = true →
        r'.time_text = some "10:00")) :=
  ⟨by decide,
    merge_articles_never_clobbers
      [{ id := some "a", title := some "T1", body := some "B1",
         time_text := some "10:00" }]
      [{ id := some "a", title := some "T2", body := some "B2",
         time_text := some "11:00" }]
      "manual" "2025-01-01T00:00:00" "a"
      { id := some "a", title := some "T1", body := some "B1",
        time_text := some "10:00" } (by decide)⟩

/-! ## Claim C4: the merge's frame on existing records -/

/-- C4.  When the merge backfills an existing record, every field other
than `title`, `body`, `time_text` is left unchanged: the record keeps
its `emailed`, `scraped_at`, `scraped_by`, `id` and `url`, and no record
whose id was already in the store ever appears in the created list. -/
theorem merge_articles_frame (E B : List Rec) (tag now k : String)
    (r : Rec) (hk : lookupA (index_articles E) k = some r) :
    (∃ r', lookupA (index_articles (merge_articles E B tag now).1) k =
        some r' ∧ r'.emailed = r.emailed ∧ r'.scraped_at = r.scraped_at ∧
        r'.scraped_by = r.scraped_by ∧ r'.id = r.id ∧ r'.url = r.url) ∧
    ∀ c ∈ (merge_articles E B tag now).2, c.id ≠ some k := by
  constructor
  · rcases mergeFold_lookup_mono tag now B (index_articles E, []) hk with
      ⟨r', hr', hf⟩
    obtain ⟨hid, hurl, hem, hat, hby, _, _, _⟩ := hf
    exact ⟨r', by rw [index_articles_merge]; exact hr', hem, hat, hby,
      hid, hurl⟩
  · intro c hc
    have hI := inv_merge E B tag now
    rw [merge_articles_eq] at hc
    rcases List.mem_filterMap.mp hc with ⟨i, hi, hlook⟩
    rcases hI.cnew i hi with ⟨r0, hr0, hshape⟩
    rw [hr0] at hlook
    injection hlook with hlook
    subst hlook
    have hfresh := hI.cfresh i hi
    intro hcid
    rw [hshape.1] at hcid
    injection hcid with hcid
    rw [hcid, hk] at hfresh
    exact Option.noConfusion hfresh

/-- Witness for C4 at a concrete store and batch. -/
theorem merge_articles_frame_witness :
    (lookupA
        (index_articles
          [{ id := some "a", body := some "B1",
             scraped_at := some "2024-12-31T00:00:00",
             scraped_by := some "app", url := some "http://x/1",
             emailed := some true }]) "a" =
      some
        { id := some "a", body := some "B1",
          scraped_at := some "2024-12-31T00:00:00", scraped_by := some "app",
          url := some "http://x/1", emailed := some true }) ∧
    ((∃ r', lookupA
        (index_articles
          (merge_articles
            [{ id := some "a", body := some "B1",
               scraped_at := some "2024-12-31T00:00:00",
               scraped_by := some "app", url := some "http://x/1",
               emailed := some true }]
            [{ id := some "a", title := some "T2" }, { id := some "b" }]
            "manual" "2025-01-01T00:00:00").1) "a" = some r' ∧
        r'.emailed = some true ∧ r'.scraped_at = some "2024-12-31T00:00:00" ∧
        r'.scraped_by = some "app" ∧ r'.id = some "a" ∧
        r'.url = some "http://x/1") ∧
      ∀ c ∈ (merge_articles
          [{ id := some "a", body := some "B1",
             scraped_at := some "2024-12-31T00:00:00",
             scraped_by := some "app", url := some "http://x/1",
             emailed := some true }]
          [{ id := some "a", title := some "T2" }, { id := some "b" }]
          "manual" "2025-01-01T00:00:00").2, c.id ≠ some "a") := by
  constructor
  · decide
  · have hm := merge_articles_frame
      [{ id := some "a", body := some "B1",
         scraped_at := some "2024-12-31T00:00:00", scraped_by := some "app",
         url := some "http://x/1", emailed := some true }]
      [{ id := some "a", title := some "T2" }, { id := some "b" }]
      "manual" "2025-01-01T00:00:00" "a"
      { id := some "a", body := some "B1",
        scraped_at := some "2024-12-31T00:00:00", scraped_by := some "app",
        url := some "http://x/1", emailed := some true } (by decide)
    exact hm

/-! ## Claim C3: backfill fills empty fields

The claim as frozen quantifies over *every* candidate with the stored
record's id: when one batch contains two candidates with the same id and
different non-empty `time_text`, the merged record holds the first one,
so the claim fails for the second.  The amended claim speaks of the
first such candidate. -/

/-- C3 counterexample.  Store `[{id: "a"}]` (no `time_text`), batch
`[{id: "a", time_text: "X"}, {id: "a", time_text: "Y"}]`: the second
candidate satisfies every premise of the claim (same id, non-empty
`time_text`, stored `time_text` empty), yet the merged record's
`time_text` is `"X"`, not that candidate's `"Y"`. -/
theorem merge_articles_fill_counterexample :
    (idOf { id := some "a", time_text := some "Y" } = some "a" ∧
     truthy (Rec.time_text
       { id := some "a", time_text := some "Y" }) = true ∧
     ({ id := some "a", time_text := some "Y" } : Rec) ∈
       [({ id := some "a", time_text := some "X" } : Rec),
        { id := some "a", time_text := some "Y" }] ∧
     lookupA (index_articles [({ id := some "a" } : Rec)]) "a" =
       some { id := some "a" } ∧
     truthy (Rec.time_text ({ id := some "a" } : Rec)) = false) ∧
    lookupA
      (index_articles
        (merge_articles [({ id := some "a" } : Rec)]
          [({ id := some "a", time_text := some "X" } : Rec),
           { id := some "a", time_text := some "Y" }] "t" "n").1) "a" =
      some { id := some "a", time_text := some "X" } ∧
    Rec.time_text { id := some "a", time_text := some "X" } ≠
      Rec.time_text { id := some "a", time_text := some "Y" } := by
  decide

theorem first_fill_generic (get : Rec → Option String)
    (hkeep : ∀ s it, truthy (get it) = false → get (backfill s it) = get s)
    (hstable : ∀ s it, truthy (get s) = true → get (backfill s it) = get s)
    (hfill : ∀ s it, truthy (get s) = false → truthy (get it) = true →
      get (backfill s it) = get it)
    (E B1 B2 : List Rec) (b : Rec) (tag now k : String) (r : Rec)
    (hk : lookupA (index_articles E) k = some r)
    (hrf : truthy (get r) = false) (hid : idOf b = some k)
    (hbt : truthy (get b) = true)
    (hB1 : ∀ b' ∈ B1, idOf b' = some k → truthy (get b') = false) :
    ∃ r', lookupA (index_articles
        (merge_articles E (B1 ++ b :: B2) tag now).1) k = some r' ∧
      get r' = get b := by
  rcases ff_keep tag now get hkeep B1 (index_articles E, []) hk hB1 with
    ⟨v1, hv1, he1⟩
  have hmid : mergeStep tag now
      (mergeFold tag now (index_articles E, []) B1) b =
      ((insertA (mergeFold tag now (index_articles E, []) B1).1 k
        (backfill v1 b)), (mergeFold tag now (index_articles E, []) B1).2) := by
    simp [mergeStep, hid, hv1]
  have hv1f : truthy (get v1) = false := by
    rw [he1]
    exact hrf
  have hlk : lookupA (mergeStep tag now
      (mergeFold tag now (index_articles E, []) B1) b).1 k =
      some (backfill v1 b) := by
    rw [hmid]
    exact lookupA_insertA_self _ k _
  have hbf : get (backfill v1 b) = get b := hfill v1 b hv1f hbt
  rcases ff_stable tag now get hstable B2 _ hlk (by rw [hbf]; exact hbt) with
    ⟨r', hr', he'⟩
  refine ⟨r', ?_, he'.trans hbf⟩
  rw [index_articles_merge E (B1 ++ b :: B2) tag now, mergeFold_append]
  exact hr'

/-- C3 (amended).  For every stored record whose `time_text` is
empty/absent and every batch whose *first* candidate carrying the
stored id together with a non-empty `time_text` is `b`, the merged
record's `time_text` equals `b`'s; symmetrically for empty `title` and
empty `body`. -/
theorem merge_articles_first_fill (E B1 B2 : List Rec) (b : Rec)
    (tag now k : String) :
    (∀ r, lookupA (index_articles E) k = some r →
      truthy r.time_text = false → idOf b = some k →
      truthy b.time_text = true →
      (∀ b' ∈ B1, idOf b' = some k → truthy b'.time_text = false) →
      ∃ r', lookupA (index_articles
          (merge_articles E (B1 ++ b :: B2) tag now).1) k = some r' ∧
        r'.time_text = b.time_text) ∧
    (∀ r, lookupA (index_articles E) k = some r →
      truthy r.title = false → idOf b = some k →
      truthy b.title = true →
      (∀ b' ∈ B1, idOf b' = some k → truthy b'.title = false) →
      ∃ r', lookupA (index_articles
          (merge_articles E (B1 ++ b :: B2) tag now).1) k = some r' ∧
        r'.title = b.title) ∧
    (∀ r, lookupA (index_articles E) k = some r →
      truthy r.body = false → idOf b = some k →
      truthy b.body = true →
      (∀ b' ∈ B1, idOf b' = some k → truthy b'.body = false) →
      ∃ r', lookupA (index_articles
          (merge_articles E (B1 ++ b :: B2) tag now).1) k = some r' ∧
        r'.body = b.body) := by
  refine ⟨?_, ?_, ?_⟩
  · intro r hk hrf hid hbt hB1
    exact first_fill_generic Rec.time_text
      (fun s it h => by rw [backfill_time_text]; simp [h])
      (fun s it h => by rw [backfill_time_text]; simp [h])
      (fun s it h1 h2 => by rw [backfill_time_text]; simp [h1, h2])
      E B1 B2 b tag now k r hk hrf hid hbt hB1
  · intro r hk hrf hid hbt hB1
    exact first_fill_generic Rec.title
      (fun s it h => by rw [backfill_title]; simp [h])
      (fun s it h => by rw [backfill_title]; simp [h])
      (fun s it h1 h2 => by rw [backfill_title]; simp [h1, h2])
      E B1 B2 b tag now k r hk hrf hid hbt hB1
  · intro r hk hrf hid hbt hB1
    exact first_fill_generic Rec.body
      (fun s it h => by rw [backfill_body]; simp [h])
      (fun s it h => by rw [backfill_body]; simp [h])
      (fun s it h1 h2 => by rw [backfill_body]; simp [h1, h2])
      E B1 B2 b tag now k r hk hrf hid hbt hB1

/-- Witness for the amended C3 at concrete inputs, one per field. -/
theorem merge_articles_first_fill_witness :
    (∃ r', lookupA (index_articles
        (merge_articles [({ id := some "a" } : Rec)]
          ([] ++ ({ id := some "a", time_text := some "X" } : Rec) :: [])
          "t" "n").1) "a" = some r' ∧
      r'.time_text = Rec.time_text
        { id := some "a", time_text := some "X" }) ∧
    (∃ r', lookupA (index_articles
        (merge_articles [({ id := some "a" } : Rec)]
          ([] ++ ({ id := some "a", title := some "T" } : Rec) :: [])
          "t" "n").1) "a" = some r' ∧
      r'.title = Rec.title { id := some "a", title := some "T" }) ∧
    (∃ r', lookupA (index_articles
        (merge_articles [({ id := some "a" } : Rec)]
          ([] ++ ({ id := some "a", body := some "B" } : Rec) :: [])
          "t" "n").1) "a" = some r' ∧
      r'.body = Rec.body { id := some "a", body := some "B" }) :=
  ⟨(merge_articles_first_fill [({ id := some "a" } : Rec)] [] []
      { id := some "a", time_text := some "X" } "t" "n" "a").1
      { id := some "a" } (by decide) (by decide) (by decide) (by decide)
      (by intro b' hb'; cases hb'),
   (merge_articles_first_fill [({ id := some "a" } : Rec)] [] []
      { id := some "a", title := some "T" } "t" "n" "a").2.1
      { id := some "a" } (by decide) (by decide) (by decide) (by decide)
      (by intro b' hb'; cases hb'),
   (merge_articles_first_fill [({ id := some "a" } : Rec)] [] []
      { id := some "a", body := some "B" } "t" "n" "a").2.2
      { id := some "a" } (by decide) (by decide) (by decide) (by decide)
      (by intro b' hb'; cases hb')⟩

/-! ## Claim C5: order preservation -/

/-- C5.  The merged collection is exactly the pre-existing (indexed)
records, in their original relative order, followed by the created
records: dropping the stored prefix of the merged collection gives the
created list itself, the prefix carries the stored records' ids in their
original order, and the created records' ids form a subsequence of the
batch's (truthy) ids, i.e. the created list keeps candidate order. -/
theorem merge_articles_order (E B : List Rec) (tag now : String) :
    (merge_articles E B tag now).1.drop (index_articles E).length =
      (merge_articles E B tag now).2 ∧
    ((merge_articles E B tag now).1.take (index_articles E).length).map
        Rec.id = ((index_articles E).map Prod.snd).map Rec.id ∧
    List.Sublist ((merge_articles E B tag now).2.map Rec.id)
      ((B.filterMap idOf).map some) := by
  have hI := inv_merge E B tag now
  rw [merge_articles_eq]
  refine ⟨?_, ?_, ?_⟩
  · rw [← List.map_drop]
    rw [show (mergeFold tag now (index_articles E, []) B).2 =
      ((mergeFold tag now (index_articles E, []) B).1.drop
        (index_articles E).length).map Prod.fst from hI.ckeys]
    rw [filterMap_lookup_of_pairs _ _ ?_]
    intro p hp
    exact lookupA_of_mem_nodup hI.nodup (List.mem_of_mem_drop hp)
  · rw [← List.map_take]
    rw [map_id_of_ids _ (fun p hp => hI.ids p (List.mem_of_mem_take hp)),
      map_id_of_ids _ (index_articles_ids E), frames_take_keys hI.frames]
  · rw [map_id_filterMap_lookup _ _ ?_]
    · rcases mergeFold_created_sub tag now B (index_articles E, []) with
        ⟨ext, he, hs⟩
      rw [he]
      simpa using List.Sublist.map some hs
    · intro i hi
      rcases hI.cnew i hi with ⟨r, hr1, hr2⟩
      exact ⟨r, hr1, hr2.1⟩

/-! ## Claim C10: shape of newly created records

The claim as frozen also asserts that a created record's `title` (etc.)
is the empty string whenever the creating candidate's value was falsy,
and that its `time_text` equals the creating candidate's.  The Python
`created` list holds references to the dictionaries stored in the
lookup, so a *later* candidate with the same id backfills the created
record in place; the field-exactness part therefore only holds when the
batch carries no duplicate ids.  The schema part (all eight fields
present, string `title`/`body`/`url`, `emailed = False`, provenance and
timestamp as supplied) holds unconditionally. -/

/-- C10 counterexample.  With an empty store and the batch
`[{id: "a"}, {id: "a", title: "T", time_text: "X"}]`, the only created
record is created for the first candidate, whose `title` is absent and
whose `time_text` is `None`; the claim then demands `title = ""` and
`time_text = None` on the created record, but the second candidate's
in-place backfill leaves `title = "T"` and `time_text = "X"`. -/
theorem merge_articles_created_counterexample :
    ((merge_articles [] [({ id := some "a" } : Rec),
        { id := some "a", title := some "T", time_text := some "X" }]
        "t" "n").2 =
      [{ id := some "a", title := some "T", body := some "",
         url := some "", time_text := some "X", scraped_at := some "n",
         scraped_by := some "t", emailed := some false }]) ∧
    truthy (Rec.title ({ id := some "a" } : Rec)) = false ∧
    Rec.time_text ({ id := some "a" } : Rec) = none ∧
    (some "T" : Option String) ≠ some "" ∧
    (some "X" : Option String) ≠ none := by
  decide

/-- C10 (amended).  Every record created by the merge has all eight
schema fields present, with `title`, `body`, `url` strings (never
`None`), `emailed = false`, and the supplied timestamp and provenance
tag; and when the batch's truthy ids contain no duplicates, the created
record is exactly the record built from its candidate: empty strings
where the candidate's `title`, `body` or `url` was missing or falsy,
and `time_text` equal to the candidate's (possibly `None`) value. -/
theorem merge_articles_created_shape (E B : List Rec) (tag now : String) :
    (∀ c ∈ (merge_articles E B tag now).2,
      c.emailed = some false ∧ c.scraped_at = some now ∧
      c.scraped_by = some tag ∧ (∃ s, c.title = some s) ∧
      (∃ s, c.body = some s) ∧ (∃ s, c.url = some s) ∧
      ∃ i, c.id = some i ∧ i ≠ "") ∧
    ((B.filterMap idOf).Nodup → ∀ c ∈ (merge_articles E B tag now).2,
      ∃ b ∈ B, ∃ i, idOf b = some i ∧ c = newRec i b tag now ∧
        c.title = some (orEmpty b.title) ∧ c.body = some (orEmpty b.body) ∧
        c.url = some (orEmpty b.url) ∧ c.time_text = b.time_text ∧
        c.emailed = some false) := by
  have hI := inv_merge E B tag now
  constructor
  · intro c hc
    rw [merge_articles_eq] at hc
    rcases List.mem_filterMap.mp hc with ⟨i, hi, hlook⟩
    rcases hI.cnew i hi with ⟨r0, hr0, hshape⟩
    rw [hr0] at hlook
    injection hlook with hlook
    subst hlook
    obtain ⟨h1, h2, h3, h4, h5, h6, h7⟩ := hshape
    have hine : i ≠ "" := by
      have hmem := lookupA_mem hr0
      exact (idOf_eq_some.mp (hI.ids (i, r0) hmem)).2
    exact ⟨h7, h5, h6, h2, h3, h4, i, h1, hine⟩
  · intro hnd c hc
    rw [merge_articles_eq] at hc
    rcases List.mem_filterMap.mp hc with ⟨i, hi, hlook⟩
    have hexact := mergeFold_created_exact tag now (fun b => b ∈ B) B
      (fun b hb => hb) hnd (index_articles E, [])
      (fun i' hi' => absurd hi' (List.not_mem_nil i')) i hi
    rcases hexact with ⟨b, hbB, hbid, hblook⟩
    rw [hblook] at hlook
    injection hlook with hlook
    subst hlook
    exact ⟨b, hbB, i, hbid, rfl, rfl, rfl, rfl, rfl, rfl⟩

/-- Witness for the amended C10: one creating candidate with every
optional field absent yields the fully defaulted record. -/
theorem merge_articles_created_shape_witness :
    (∀ c ∈ (merge_articles [] [({ id := some "a" } : Rec)] "t" "n").2,
      c.emailed = some false ∧ c.scraped_at = some "n" ∧
      c.scraped_by = some "t" ∧ (∃ s, c.title = some s) ∧
      (∃ s, c.body = some s) ∧ (∃ s, c.url = some s) ∧
      ∃ i, c.id = some i ∧ i ≠ "") ∧
    (∀ c ∈ (merge_articles [] [({ id := some "a" } : Rec)] "t" "n").2,
      ∃ b ∈ [({ id := some "a" } : Rec)], ∃ i, idOf b = some i ∧
        c = newRec i b "t" "n" ∧
        c.title = some (orEmpty b.title) ∧ c.body = some (orEmpty b.body) ∧
        c.url = some (orEmpty b.url) ∧ c.time_text = b.time_text ∧
        c.emailed = some false) :=
  ⟨(merge_articles_created_shape [] [({ id := some "a" } : Rec)] "t" "n").1,
   (merge_articles_created_shape [] [({ id := some "a" } : Rec)] "t" "n").2
     (by decide)⟩

/-! ## Claim C7: clear then load

`clear_database` goes through `save_database`, which unconditionally
stamps `payload["updated_at"] = _now_iso()` before uploading; the loaded
document therefore carries that timestamp, not `null`. -/

/-- C7 counterexample.  After `clear_database()` at a concrete
timestamp, `load_database()` returns the empty article list but an
`updated_at` equal to the save-time timestamp — not `null` as the claim
(and the spec scenario) state. -/
theorem clear_then_load_counterexample :
    (load_database (clear_database "2025-01-01T00:00:00+00:00")).articles =
      some [] ∧
    (load_database (clear_database "2025-01-01T00:00:00+00:00")).updated_at =
      some (some "2025-01-01T00:00:00+00:00") ∧
    (load_database
        (clear_database "2025-01-01T00:00:00+00:00")).updated_at ≠
      some none := by
  decide

/-- C7 (amended).  Clearing the collection and then loading it returns a
document whose `articles` field is the empty list and whose `updated_at`
is the timestamp written by the save inside `clear_database` (never
`null`). -/
theorem clear_then_load (now_iso : String) :
    load_database (clear_database now_iso) =
      { updated_at := some (some now_iso), articles := some [] } := by
  simp [load_database, clear_database, save_database]

/-! ## Claim C8: `time_text` in `parse_list` output

`get_text(strip=True)` on a *present* time element may be the empty
string (an empty `.catTopTime` or `.ns2-created` element), and
`parse_list` passes it through; so the output's `time_text` is `None`
exactly when no time element is present, but it is not in general a
non-empty string when one is. -/

/-- C8 counterexample.  A listing entry whose `.ns2-created` element is
present but has empty stripped text yields a reference with
`time_text = some ""` — neither `None` nor a non-empty string. -/
theorem parse_list_time_counterexample :
    ((parse_list
        { top := none,
          entries := [{ href := "x", text := "t",
                        inner := some { created := some "" } }] }).map
      ArticleLink.time_text = [some ""]) ∧
    ¬ (∀ r ∈ parse_list
        { top := none,
          entries := [{ href := "x", text := "t",
                        inner := some { created := some "" } }] },
        r.time_text = none ∨ r.time_text ≠ some "") := by
  constructor
  · decide
  · intro h
    have hr := h
      { title := "t", url := normalize_url "x", time_text := some "" }
      (by decide)
    rcases hr with hr | hr
    · exact Option.noConfusion hr
    · exact hr rfl

theorem mem_dedupeGo {r : ArticleLink} (seen : List String)
    (l : List ArticleLink) (h : r ∈ dedupeGo seen l) : r ∈ l := by
  induction l generalizing seen with
  | nil => cases h
  | cons item t ih =>
    by_cases hs : item.url ∈ seen
    · simp only [dedupeGo, if_pos hs] at h
      exact List.mem_cons_of_mem _ (ih _ h)
    · simp only [dedupeGo, if_neg hs] at h
      rcases List.mem_cons.mp h with h' | h'
      · exact List.mem_cons.mpr (Or.inl h')
      · exact List.mem_cons_of_mem _ (ih _ h')

/-- C8 (amended).  In every reference produced by `parse_list`, the
`time_text` is `None` when no time element was selected, and otherwise
is exactly the (possibly empty) stripped text of a present time element
of the input: the top block's `.catTopTime`, or a `.ns2-created` inside
the entry's `.ns2-inner`. -/
theorem parse_list_time_text (soup : ListSoup) :
    ∀ r ∈ parse_list soup, r.time_text = none ∨
      (∃ tb, soup.top = some tb ∧ tb.timeTag = r.time_text) ∨
      (∃ e ∈ soup.entries, ∃ inn, e.inner = some inn ∧
        inn.created = r.time_text) := by
  obtain ⟨topOpt, entries⟩ := soup
  intro r hr
  have hr' := mem_dedupeGo [] _ hr
  rcases List.mem_append.mp hr' with htop | hrest
  · cases topOpt with
    | none => exact absurd htop (List.not_mem_nil r)
    | some tb =>
      obtain ⟨linkOpt, titleOpt, timeOpt⟩ := tb
      cases linkOpt with
      | none => exact absurd htop (List.not_mem_nil r)
      | some href =>
        cases titleOpt with
        | none => exact absurd htop (List.not_mem_nil r)
        | some ttext =>
          have hre : r =
              { title := ttext, url := normalize_url href,
                time_text := timeOpt } :=
            List.mem_singleton.mp htop
          subst hre
          exact Or.inr (Or.inl ⟨⟨some href, some ttext, timeOpt⟩, rfl, rfl⟩)
  · rcases List.mem_map.mp hrest with ⟨e, he, hre⟩
    obtain ⟨href, etext, innOpt⟩ := e
    cases innOpt with
    | none =>
      refine Or.inl ?_
      rw [← hre]
    | some inn =>
      obtain ⟨crOpt⟩ := inn
      cases crOpt with
      | none =>
        refine Or.inl ?_
        rw [← hre]
      | some s =>
        refine Or.inr (Or.inr ⟨⟨href, etext, some ⟨some s⟩⟩, he,
          ⟨some s⟩, rfl, ?_⟩)
        rw [← hre]

/-- Witness for the amended C8: an entry with a present, non-empty time
element. -/
theorem parse_list_time_text_witness :
    (({ title := "t", url := normalize_url "x",
        time_text := some "08:00" } : ArticleLink) ∈ parse_list
      { top := none,
        entries := [{ href := "x", text := "t",
                      inner := some { created := some "08:00" } }] }) ∧
    (({ title := "t", url := normalize_url "x",
        time_text := some "08:00" } : ArticleLink).time_text = none ∨
      (∃ tb, ListSoup.top
        { top := none,
          entries := [{ href := "x", text := "t",
                        inner := some { created := some "08:00" } }] } =
          some tb ∧ tb.timeTag = some "08:00") ∨
      (∃ e ∈ ListSoup.entries
        { top := none,
          entries := [{ href := "x", text := "t",
                        inner := some { created := some "08:00" } }] },
        ∃ inn, e.inner = some inn ∧ inn.created = some "08:00")) :=
  ⟨by decide,
   parse_list_time_text
     { top := none,
       entries := [{ href := "x", text := "t",
                     inner := some { created := some "08:00" } }] }
     { title := "t", url := normalize_url "x", time_text := some "08:00" }
     (by decide)⟩

/-! ## Claim C9: payload builder title/body fallback -/

theorem build_payload_length (fetchSoup : String → DetailSoup)
    (items : List ArticleLink) :
    (build_payload fetchSoup items).length = items.length := by
  simp [build_payload]

/-- C9.  For every reference processed by the payload builder, the
emitted record's `title` is the detail page's parsed title when that is
a non-empty string and the reference's title otherwise, and its `body`
is the detail page's parsed body when that is a non-empty string and the
empty string otherwise. -/
theorem build_payload_fields (fetchSoup : String → DetailSoup)
    (items : List ArticleLink) (j : Nat) (hj : j < items.length) :
    (∀ s, (parse_detail (fetchSoup (items.get ⟨j, hj⟩).url)).title = some s →
      s ≠ "" → ((build_payload fetchSoup items).get
        ⟨j, by rw [build_payload_length]; exact hj⟩).title = some s) ∧
    ((parse_detail (fetchSoup (items.get ⟨j, hj⟩).url)).title = none ∨
      (parse_detail (fetchSoup (items.get ⟨j, hj⟩).url)).title = some "" →
      ((build_payload fetchSoup items).get
        ⟨j, by rw [build_payload_length]; exact hj⟩).title =
        some (items.get ⟨j, hj⟩).title) ∧
    (∀ s, (parse_detail (fetchSoup (items.get ⟨j, hj⟩).url)).body = some s →
      s ≠ "" → ((build_payload fetchSoup items).get
        ⟨j, by rw [build_payload_length]; exact hj⟩).body = some s) ∧
    ((parse_detail (fetchSoup (items.get ⟨j, hj⟩).url)).body = none ∨
      (parse_detail (fetchSoup (items.get ⟨j, hj⟩).url)).body = some "" →
      ((build_payload fetchSoup items).get
        ⟨j, by rw [build_payload_length]; exact hj⟩).body = some "") := by
  have hget : (build_payload fetchSoup items).get
      ⟨j, by rw [build_payload_length]; exact hj⟩ =
      (fun item =>
        let detail := parse_detail (fetchSoup item.url)
        ({ id := some (article_id item.url)
           title := some (pyOr detail.title item.title)
           body := some (pyOr detail.body "")
           url := some item.url
           time_text := item.time_text } : Rec)) (items.get ⟨j, hj⟩) := by
    simp [build_payload]
  refine ⟨?_, ?_, ?_, ?_⟩
  · intro s hs hne
    simp only [List.get_eq_getElem] at hs
    rw [hget]
    simp [pyOr, hs, hne]
  · intro hcase
    rw [hget]
    rcases hcase with hc | hc <;>
      simp only [List.get_eq_getElem] at hc <;> simp [pyOr, hc]
  · intro s hs hne
    simp only [List.get_eq_getElem] at hs
    rw [hget]
    simp [pyOr, hs, hne]
  · intro hcase
    rw [hget]
    rcases hcase with hc | hc <;>
      simp only [List.get_eq_getElem] at hc <;> simp [pyOr, hc]

/-- Witness for C9 with one reference: a present non-empty detail title
wins, and an absent detail body yields the empty string. -/
theorem build_payload_fields_witness :
    (((build_payload
        (fun _ => { titleTag := some "DT", bodyRaw := none })
        [{ title := "LT", url := "u" }]).get
      ⟨0, by rw [build_payload_length]; decide⟩).title = some "DT") ∧
    (((build_payload
        (fun _ => { titleTag := some "DT", bodyRaw := none })
        [{ title := "LT", url := "u" }]).get
      ⟨0, by rw [build_payload_length]; decide⟩).body = some "") := by
  have h := build_payload_fields
    (fun _ => { titleTag := some "DT", bodyRaw := none })
    [{ title := "LT", url := "u" }] 0 (by decide)
  exact ⟨h.1 "DT" rfl (by decide), h.2.2.2 (Or.inl rfl)⟩

/-! ## Claim C6: the article identifier

`article_id(url)` is `hashlib.sha256(url.encode("utf-8")).hexdigest()[:16]`,
embedded above as a full SHA-256 over the UTF-8 bytes.  The two
examples at the end of this section check the embedding against the
standard SHA-256 test vectors. -/

theorem wordHex_length (w : Nat) : (wordHex w).length = 8 := rfl

theorem digestChars_length (H : Hash8) : (digestChars H).length = 64 := by
  simp [digestChars, wordHex]

theorem hexDigit_lt_mem : ∀ k, k < 16 → hexDigit k ∈
    ("0123456789abcdef".data) := by
  decide

theorem wordHex_mem (w : Nat) :
    ∀ c ∈ wordHex w, c ∈ "0123456789abcdef".data := by
  intro c hc
  simp only [wordHex, List.mem_cons, List.not_mem_nil, or_false] at hc
  rcases hc with rfl | rfl | rfl | rfl | rfl | rfl | rfl | rfl <;>
    exact hexDigit_lt_mem _ (Nat.mod_lt _ (by norm_num))

theorem digestChars_mem (H : Hash8) :
    ∀ c ∈ digestChars H, c ∈ "0123456789abcdef".data := by
  intro c hc
  simp only [digestChars, List.mem_append] at hc
  rcases hc with ((((((hc | hc) | hc) | hc) | hc) | hc) | hc) | hc <;>
    exact wordHex_mem _ c hc

/-- C6.  `article_id` is a pure function of the URL alone: calling it
twice on the same URL gives the same result, that result is by
construction the first 16 characters of the lowercase hex SHA-256
digest of the UTF-8-encoded URL, and it is always a 16-character
hexadecimal string. -/
theorem article_id_spec (url : String) :
    article_id url = article_id url ∧
    article_id url =
      String.mk ((sha256HexChars (utf8Bytes url)).take 16) ∧
    (article_id url).length = 16 ∧
    ∀ c ∈ (article_id url).data, c ∈ "0123456789abcdef".data := by
  refine ⟨rfl, rfl, ?_, ?_⟩
  · show ((sha256HexChars (utf8Bytes url)).take 16).length = 16
    rw [List.length_take, sha256HexChars, digestChars_length]
    norm_num
  · intro c hc
    have hc' : c ∈ sha256HexChars (utf8Bytes url) :=
      List.mem_of_mem_take hc
    exact digestChars_mem _ c hc'

set_option maxRecDepth 100000 in
/-- Witness for C6 at a concrete URL (digest prefix computed by the
embedded SHA-256). -/
theorem article_id_spec_witness :
    article_id "https://news.rthk.hk/rthk/ch/component/k2/1" =
      article_id "https://news.rthk.hk/rthk/ch/component/k2/1" ∧
    (article_id "https://news.rthk.hk/rthk/ch/component/k2/1").length = 16 ∧
    ('0' ∈ (article_id "https://news.rthk.hk/rthk/ch/component/k2/1").data →
      '0' ∈ "0123456789abcdef".data) :=
  ⟨(article_id_spec "https://news.rthk.hk/rthk/ch/component/k2/1").1,
   (article_id_spec "https://news.rthk.hk/rthk/ch/component/k2/1").2.2.1,
   (article_id_spec "https://news.rthk.hk/rthk/ch/component/k2/1").2.2.2 '0'⟩

set_option maxRecDepth 100000 in
example : sha256_hexdigest "" =
    "e3b0c44298fc1c149afbf4c8996fb92427ae41e4649b934ca495991b7852b855" := by
  decide

set_option maxRecDepth 100000 in
example : sha256_hexdigest "abc" =
    "ba7816bf8f01cfea414140de5dae2223b00361a396177a9cb410ff61f20015ad" := by
  decide

set_option maxRecDepth 100000 in
example : article_id "https://news.rthk.hk/rthk/ch/component/k2/1" =
    "0f92fa26503d9f0b" := by
  decide

example : utf8Bytes "aé€" = [97, 195, 169, 226, 130, 172] := by decide

end RTHK
